import Mathlib

/-!
# Verification of the knowledge_map distributed layering engine

A shallow embedding, in Lean 4, of the core layout algorithms of the
`worker_distributed_layering_rust` crate, together with proofs about them:

* `GlobalLayerState` (file `algorithms/vertex_placement/global_layer_state.rs`):
  incremental, batch-based layer assignment with worklist propagation.
* vertex placement (`algorithms/vertex_placement/placement.rs`),
* edge routing (`algorithms/vertex_placement/edge_routing.rs`),
* the adjacency-indexed `Graph` and its DFS cycle check (`data_structures.rs`),
* level-by-level Kahn topological sort (`algorithms/topological_sort.rs`),
* BFS layer assignment and the placer facade (`algorithms/vertex_placement/
  layer_assignment.rs`, `mod.rs`), and the layout-engine entry points
  (`algorithms/mod.rs`).

Modelling conventions:

* Rust `HashMap`s are modelled as association lists: the list order stands for
  the (arbitrary but fixed) iteration order of the hash map.  `HashSet`s are
  modelled as duplicate-free lists in insertion order.  All results proved
  about converged states are iteration-order-insensitive.
* Rust `f32` coordinates are modelled as exact rationals (`ℚ`); the arithmetic
  performed by the code (a handful of additions, multiplications and divisions)
  is mirrored literally.
* Loops whose termination is not structural receive an explicit `fuel`
  parameter and return `Option`/partial data when the fuel runs out; the source
  has no such bound, so `none` models a run that has not finished.
* Logging, timing and statistics-only fields (`max_layer`, `total_vertices`,
  `update_iterations`, …) are omitted: no control flow depends on them.
-/

namespace KnowledgeMap

/-- Association-list view of `HashMap<String, i32>`: the list order models the
hash map's iteration order. -/
abbrev VMap := List (String × Int)

/-- `HashMap::get`, first-match lookup. -/
def VMap.find : VMap → String → Option Int
  | [], _ => none
  | (k', v) :: rest, k => if k' = k then some v else VMap.find rest k

/-- `HashMap::insert`: overwrite the existing entry, else append. -/
def VMap.insert : VMap → String → Int → VMap
  | [], k, v => [(k, v)]
  | (k', v') :: rest, k, v =>
      if k' = k then (k, v) :: rest else (k', v') :: VMap.insert rest k v

/-- `HashSet::insert` on a duplicate-free list in insertion order. -/
def insertUnique {α : Type} [DecidableEq α] (l : List α) (x : α) : List α :=
  if x ∈ l then l else l ++ [x]

/-- `s.trim().is_empty()`: a string trims to empty exactly when every
character is whitespace (stated this way because `String.trim` itself is
opaque to kernel reduction). -/
def trimEmpty (s : String) : Bool := s.data.all Char.isWhitespace

/-- The edge-validity filter of `GlobalLayerState::add_edges_batch`
(`global_layer_state.rs:69`): skip empty endpoints and self-loops. -/
def validEdge (e : String × String) : Prop :=
  trimEmpty e.1 = false ∧ trimEmpty e.2 = false ∧ e.1 ≠ e.2

instance : DecidablePred validEdge := fun e => by
  unfold validEdge; infer_instance

/-- `GlobalLayerState` (`global_layer_state.rs:19`).  The Rust struct keeps two
mutually consistent adjacency maps `outgoing_edges` / `incoming_edges`, always
updated in tandem with the same edge; we keep the single underlying edge set
(as a duplicate-free list) and derive both projections from it.  The
statistics fields are omitted. -/
structure GlobalLayerState where
  vertexLayers : VMap
  edges : List (String × String)
  dirtyVertices : List String
deriving DecidableEq

/-- `GlobalLayerState::new`. -/
def initialState : GlobalLayerState := ⟨[], [], []⟩

/-- Processing of one edge inside `add_edges_batch` (`global_layer_state.rs:
67-99`): skip invalid edges, insert unseen endpoints with layer 0, record the
edge (deduplicated), and mark the target dirty. -/
def addEdge (st : GlobalLayerState) (e : String × String) : GlobalLayerState :=
  if validEdge e then
    { vertexLayers :=
        let m1 := if (VMap.find st.vertexLayers e.1).isSome then st.vertexLayers
                  else st.vertexLayers ++ [(e.1, 0)]
        if (VMap.find m1 e.2).isSome then m1 else m1 ++ [(e.2, 0)]
      edges := insertUnique st.edges e
      dirtyVertices := insertUnique st.dirtyVertices e.2 }
  else st

/-- `GlobalLayerState::add_edges_batch` (`global_layer_state.rs:61`). -/
def addEdgesBatch (st : GlobalLayerState) (es : List (String × String)) :
    GlobalLayerState :=
  es.foldl addEdge st

/-- Current layer of a vertex, `*self.vertex_layers.get(&vertex).unwrap_or(&0)`. -/
def layerOf (st : GlobalLayerState) (v : String) : Int :=
  (VMap.find st.vertexLayers v).getD 0

/-- `incoming_edges` projection: sources of the recorded edges into `v`. -/
def predecessorsOf (st : GlobalLayerState) (v : String) : List String :=
  (st.edges.filter (fun e => e.2 == v)).map (·.1)

/-- `outgoing_edges` projection: targets of the recorded edges out of `v`. -/
def successorsOf (st : GlobalLayerState) (v : String) : List String :=
  (st.edges.filter (fun e => e.1 == v)).map (·.2)

/-- The layer recomputation rule of `propagate_layers`
(`global_layer_state.rs:139-154`): `0` with no incoming edges, else
`max(found predecessor layers) + 1` (`unwrap_or(0)` when nothing is found). -/
def computeLayer (st : GlobalLayerState) (v : String) : Int :=
  match ((predecessorsOf st v).filterMap
      (fun p => VMap.find st.vertexLayers p)).max? with
  | none => 0
  | some m => m + 1

/-- The worklist loop of `propagate_layers` (`global_layer_state.rs:137-172`),
with explicit fuel: pop a vertex, recompute its layer, and on a change store it
and enqueue all successors.  Returns the final state and the update count, or
`none` if the fuel is exhausted before the queue empties. -/
def propagateLoop : Nat → GlobalLayerState → List String → Nat →
    Option (GlobalLayerState × Nat)
  | _, st, [], updated => some (st, updated)
  | 0, _, _ :: _, _ => none
  | fuel + 1, st, v :: queue, updated =>
    if computeLayer st v = layerOf st v then
      propagateLoop fuel st queue updated
    else
      propagateLoop fuel
        { st with vertexLayers := VMap.insert st.vertexLayers v (computeLayer st v) }
        (queue ++ successorsOf st v) (updated + 1)

/-- `GlobalLayerState::propagate_layers` (`global_layer_state.rs:117`): return
0 with no dirty vertices, else drain the dirty set into the queue and run the
worklist loop. -/
def propagateLayers (fuel : Nat) (st : GlobalLayerState) :
    Option (GlobalLayerState × Nat) :=
  if st.dirtyVertices = [] then some (st, 0)
  else propagateLoop fuel { st with dirtyVertices := [] } st.dirtyVertices 0

/-- The outer loop of `propagate_until_convergence`
(`global_layer_state.rs:192-210`), counted down from the 100-iteration safety
cap: stop on a 0-update pass or when the cap is reached. -/
def propagateAux (fuel : Nat) : Nat → GlobalLayerState → Nat →
    Option (GlobalLayerState × Nat)
  | 0, st, total => some (st, total)
  | remaining + 1, st, total =>
    match propagateLayers fuel st with
    | none => none
    | some (st', updates) =>
      if updates = 0 then some (st', total + updates)
      else if remaining = 0 then some (st', total + updates)
      else propagateAux fuel remaining st' (total + updates)

/-- `GlobalLayerState::propagate_until_convergence` (`global_layer_state.rs:
185`), with `max_iterations = 100`. -/
def propagateUntilConvergence (fuel : Nat) (st : GlobalLayerState) :
    Option (GlobalLayerState × Nat) :=
  propagateAux fuel 100 st 0

/-- `GlobalLayerState::get_layer_map`. -/
def getLayerMap (st : GlobalLayerState) : VMap := st.vertexLayers

/-- `GlobalLayerState::validate_layers` (`global_layer_state.rs:271`): count
the recorded edges whose source layer is not below their target layer, reading
missing vertices as layer 0. -/
def validateLayers (st : GlobalLayerState) : Nat :=
  st.edges.countP (fun e => layerOf st e.2 ≤ layerOf st e.1)

/-- One batching schedule end to end: apply every batch with
`add_edges_batch`, then run `propagate_until_convergence` once. -/
def processBatches (batches : List (List (String × String))) (fuel : Nat) :
    Option GlobalLayerState :=
  (propagateUntilConvergence fuel (batches.foldl addEdgesBatch initialState)).map
    (·.1)

-- Sanity checks mirroring the Rust unit tests `test_simple_chain`,
-- `test_diamond_graph` and `test_batch_processing`.
example :
    (processBatches [[("A", "B"), ("B", "C")]] 64).map
      (fun st => [VMap.find st.vertexLayers "A", VMap.find st.vertexLayers "B",
        VMap.find st.vertexLayers "C"]) =
    some [some 0, some 1, some 2] := by decide

example :
    (processBatches [[("A", "B"), ("A", "C"), ("B", "D"), ("C", "D")]] 64).map
      (fun st => [VMap.find st.vertexLayers "A", VMap.find st.vertexLayers "B",
        VMap.find st.vertexLayers "C", VMap.find st.vertexLayers "D"]) =
    some [some 0, some 1, some 1, some 2] := by decide

example :
    (processBatches [[("A", "B"), ("B", "C")], [("C", "D"), ("D", "E")]] 64).map
      (fun st => [VMap.find st.vertexLayers "A", VMap.find st.vertexLayers "B",
        VMap.find st.vertexLayers "C", VMap.find st.vertexLayers "D",
        VMap.find st.vertexLayers "E"]) =
    some [some 0, some 1, some 2, some 3, some 4] := by decide

example :
    (processBatches [[("A", "B"), ("B", "C")]] 64).map validateLayers =
      some 0 := by decide

/-! ## Invariants of the global layer state -/

/-- A vertex is recorded in the layer map. -/
def hasVertex (st : GlobalLayerState) (v : String) : Prop :=
  (VMap.find st.vertexLayers v).isSome = true

/-- Structural well-formedness maintained by `add_edges_batch`: every recorded
edge has both endpoints in the layer map and is not a self-loop. -/
def WFState (st : GlobalLayerState) : Prop :=
  ∀ e ∈ st.edges, hasVertex st e.1 ∧ hasVertex st e.2 ∧ e.1 ≠ e.2

/-- The dirty set covers every vertex whose stored layer disagrees with the
recomputation rule.  This is the key invariant of the worklist design. -/
def DirtyInv (st : GlobalLayerState) : Prop :=
  ∀ v, layerOf st v ≠ computeLayer st v → v ∈ st.dirtyVertices

/-- Every vertex's stored layer agrees with the recomputation rule. -/
def IsFixedPoint (st : GlobalLayerState) : Prop :=
  ∀ v, layerOf st v = computeLayer st v

theorem mem_insertUnique {α : Type} [DecidableEq α] {l : List α} {x a : α} :
    a ∈ insertUnique l x ↔ a ∈ l ∨ a = x := by
  unfold insertUnique
  split
  · rename_i hx
    constructor
    · exact Or.inl
    · rintro (h | rfl) <;> [exact h; exact hx]
  · simp [or_comm]

theorem VMap.find_append_of_isSome {m : VMap} {k' : String}
    (h : (VMap.find m k').isSome) (k : String) (v : Int) :
    VMap.find (m ++ [(k, v)]) k' = VMap.find m k' := by
  induction m with
  | nil => simp [VMap.find] at h
  | cons p rest ih =>
    obtain ⟨k0, v0⟩ := p
    by_cases h0 : k0 = k'
    · simp [VMap.find, h0]
    · simp only [VMap.find, if_neg h0] at h ⊢
      exact ih h

theorem VMap.find_append_of_none {m : VMap} {k' : String}
    (h : VMap.find m k' = none) (k : String) (v : Int) :
    VMap.find (m ++ [(k, v)]) k' = if k = k' then some v else none := by
  induction m with
  | nil => simp [VMap.find]
  | cons p rest ih =>
    obtain ⟨k0, v0⟩ := p
    by_cases h0 : k0 = k'
    · simp [VMap.find, h0] at h
    · simp only [VMap.find, if_neg h0] at h ⊢
      exact ih h

theorem VMap.find_insert (m : VMap) (k : String) (v : Int) (k' : String) :
    VMap.find (VMap.insert m k v) k' = if k = k' then some v else VMap.find m k' := by
  induction m with
  | nil => simp [VMap.insert, VMap.find]
  | cons p rest ih =>
    obtain ⟨k0, v0⟩ := p
    by_cases h0 : k0 = k
    · subst h0
      by_cases h1 : k0 = k'
      · simp [VMap.insert, VMap.find, h1]
      · simp [VMap.insert, VMap.find, h1]
    · by_cases h1 : k0 = k'
      · subst h1
        have : k ≠ k0 := fun hh => h0 hh.symm
        simp [VMap.insert, VMap.find, h0, this]
      · simp [VMap.insert, VMap.find, h0, h1, ih]

theorem mem_predecessorsOf {st : GlobalLayerState} {v p : String} :
    p ∈ predecessorsOf st v ↔ (p, v) ∈ st.edges := by
  simp only [predecessorsOf, List.mem_map, List.mem_filter, beq_iff_eq]
  constructor
  · rintro ⟨⟨a, b⟩, ⟨hmem, rfl⟩, rfl⟩
    exact hmem
  · intro h
    exact ⟨(p, v), ⟨h, rfl⟩, rfl⟩

theorem mem_successorsOf {st : GlobalLayerState} {v w : String} :
    w ∈ successorsOf st v ↔ (v, w) ∈ st.edges := by
  simp only [successorsOf, List.mem_map, List.mem_filter, beq_iff_eq]
  constructor
  · rintro ⟨⟨a, b⟩, ⟨hmem, rfl⟩, rfl⟩
    exact hmem
  · intro h
    exact ⟨(v, w), ⟨h, rfl⟩, rfl⟩

theorem find_eq_some_layerOf {st : GlobalLayerState} {v : String}
    (h : hasVertex st v) :
    VMap.find st.vertexLayers v = some (layerOf st v) := by
  unfold hasVertex at h
  unfold layerOf
  cases hfind : VMap.find st.vertexLayers v with
  | none => rw [hfind] at h; simp at h
  | some x => simp [hfind]

/-- `computeLayer` only looks at the edge list and the layers of the
predecessors. -/
theorem computeLayer_congr {st st' : GlobalLayerState} {v : String}
    (hP : predecessorsOf st' v = predecessorsOf st v)
    (hf : ∀ p ∈ predecessorsOf st v,
      VMap.find st'.vertexLayers p = VMap.find st.vertexLayers p) :
    computeLayer st' v = computeLayer st v := by
  unfold computeLayer
  rw [hP, List.filterMap_congr hf]

/-! Lemmas about `addEdge`. -/

theorem addEdge_of_invalid {st : GlobalLayerState} {e : String × String}
    (h : ¬ validEdge e) : addEdge st e = st := by
  simp [addEdge, h]

theorem edges_addEdge {st : GlobalLayerState} {e : String × String} :
    (addEdge st e).edges = if validEdge e then insertUnique st.edges e else st.edges := by
  unfold addEdge
  split <;> simp_all

theorem dirty_addEdge {st : GlobalLayerState} {e : String × String} :
    (addEdge st e).dirtyVertices =
      if validEdge e then insertUnique st.dirtyVertices e.2 else st.dirtyVertices := by
  unfold addEdge
  split <;> simp_all

theorem find_addEdge_of_isSome {st : GlobalLayerState} {e : String × String}
    {p : String} (hp : (VMap.find st.vertexLayers p).isSome) :
    VMap.find (addEdge st e).vertexLayers p = VMap.find st.vertexLayers p := by
  unfold addEdge
  split
  · simp only
    by_cases h1 : (VMap.find st.vertexLayers e.1).isSome
    · simp only [if_pos h1]
      by_cases h2 : (VMap.find st.vertexLayers e.2).isSome
      · simp [if_pos h2]
      · simp only [if_neg h2]
        exact VMap.find_append_of_isSome hp _ _
    · simp only [if_neg h1]
      have hp1 : (VMap.find (st.vertexLayers ++ [(e.1, 0)]) p).isSome := by
        rw [VMap.find_append_of_isSome hp]; exact hp
      have hfind1 : VMap.find (st.vertexLayers ++ [(e.1, 0)]) p =
          VMap.find st.vertexLayers p := VMap.find_append_of_isSome hp _ _
      by_cases h2 : (VMap.find (st.vertexLayers ++ [(e.1, 0)]) e.2).isSome
      · simp [if_pos h2, hfind1]
      · simp only [if_neg h2]
        rw [VMap.find_append_of_isSome hp1, hfind1]
  · rfl

theorem layerOf_addEdge (st : GlobalLayerState) (e : String × String)
    (v : String) : layerOf (addEdge st e) v = layerOf st v := by
  by_cases hv : (VMap.find st.vertexLayers v).isSome
  · unfold layerOf
    rw [find_addEdge_of_isSome hv]
  · have hv0 : VMap.find st.vertexLayers v = none := by
      cases h : VMap.find st.vertexLayers v with
      | none => rfl
      | some x => rw [h] at hv; simp at hv
    unfold layerOf addEdge
    split
    · simp only
      by_cases h1 : (VMap.find st.vertexLayers e.1).isSome
      · simp only [if_pos h1]
        by_cases h2 : (VMap.find st.vertexLayers e.2).isSome
        · simp [if_pos h2, hv0]
        · simp only [if_neg h2]
          rw [VMap.find_append_of_none hv0]
          split <;> simp [hv0]
      · simp only [if_neg h1]
        have hfind1 := VMap.find_append_of_none hv0 e.1 (0 : Int)
        by_cases hve1 : e.1 = v
        · have hsome : VMap.find (st.vertexLayers ++ [(e.1, 0)]) v = some 0 := by
            rw [hfind1, if_pos hve1]
          by_cases h2 : (VMap.find (st.vertexLayers ++ [(e.1, 0)]) e.2).isSome
          · simp [if_pos h2, hsome, hv0]
          · simp only [if_neg h2]
            rw [VMap.find_append_of_isSome (by rw [hsome]; rfl)]
            simp [hsome, hv0]
        · have hnone1 : VMap.find (st.vertexLayers ++ [(e.1, 0)]) v = none := by
            rw [hfind1, if_neg hve1]
          by_cases h2 : (VMap.find (st.vertexLayers ++ [(e.1, 0)]) e.2).isSome
          · simp [if_pos h2, hnone1, hv0]
          · simp only [if_neg h2]
            rw [VMap.find_append_of_none hnone1]
            split <;> simp [hv0]
    · rfl

theorem hasVertex_addEdge {st : GlobalLayerState} {e : String × String}
    {v : String} :
    hasVertex (addEdge st e) v ↔
      hasVertex st v ∨ (validEdge e ∧ (v = e.1 ∨ v = e.2)) := by
  constructor
  · intro h
    by_cases hval : validEdge e
    · by_cases hv : hasVertex st v
      · exact Or.inl hv
      · right
        refine ⟨hval, ?_⟩
        by_contra hne
        push_neg at hne
        have hv0 : VMap.find st.vertexLayers v = none := by
          cases hfind : VMap.find st.vertexLayers v with
          | none => rfl
          | some x => exact absurd (by rw [hasVertex, hfind]; rfl) hv
        unfold hasVertex addEdge at h
        rw [if_pos hval] at h
        simp only at h
        have hne1 : e.1 ≠ v := fun hh => hne.1 hh.symm
        have hne2 : e.2 ≠ v := fun hh => hne.2 hh.symm
        by_cases h1 : (VMap.find st.vertexLayers e.1).isSome
        · rw [if_pos h1] at h
          by_cases h2 : (VMap.find st.vertexLayers e.2).isSome
          · rw [if_pos h2] at h
            rw [hv0] at h
            simp at h
          · rw [if_neg h2] at h
            rw [VMap.find_append_of_none hv0, if_neg hne2] at h
            simp at h
        · rw [if_neg h1] at h
          have hnone1 : VMap.find (st.vertexLayers ++ [(e.1, 0)]) v = none := by
            rw [VMap.find_append_of_none hv0, if_neg hne1]
          by_cases h2 : (VMap.find (st.vertexLayers ++ [(e.1, 0)]) e.2).isSome
          · rw [if_pos h2] at h
            rw [hnone1] at h
            simp at h
          · rw [if_neg h2] at h
            rw [VMap.find_append_of_none hnone1, if_neg hne2] at h
            simp at h
    · rw [addEdge_of_invalid hval] at h
      exact Or.inl h
  · intro h
    rcases h with hv | ⟨hval, hor⟩
    · unfold hasVertex
      rw [find_addEdge_of_isSome hv]
      exact hv
    · unfold hasVertex addEdge
      rw [if_pos hval]
      simp only
      by_cases h1 : (VMap.find st.vertexLayers e.1).isSome
      · by_cases h2 : (VMap.find st.vertexLayers e.2).isSome
        · rw [if_pos h1, if_pos h2]
          rcases hor with rfl | rfl <;> assumption
        · rw [if_pos h1, if_neg h2]
          rcases hor with rfl | rfl
          · rw [VMap.find_append_of_isSome h1]; exact h1
          · cases hfind : VMap.find st.vertexLayers e.2 with
            | none => rw [VMap.find_append_of_none hfind, if_pos rfl]; rfl
            | some x => rw [hfind] at h2; simp at h2
      · rw [if_neg h1]
        have h1some : (VMap.find (st.vertexLayers ++ [(e.1, 0)]) e.1).isSome := by
          cases hfind : VMap.find st.vertexLayers e.1 with
          | none => rw [VMap.find_append_of_none hfind]; simp
          | some x => rw [hfind] at h1; simp at h1
        by_cases h2 : (VMap.find (st.vertexLayers ++ [(e.1, 0)]) e.2).isSome
        · rw [if_pos h2]
          rcases hor with rfl | rfl <;> assumption
        · rw [if_neg h2]
          rcases hor with rfl | rfl
          · rw [VMap.find_append_of_isSome h1some]; exact h1some
          · cases hfind : VMap.find (st.vertexLayers ++ [(e.1, 0)]) e.2 with
            | none => rw [VMap.find_append_of_none hfind, if_pos rfl]; rfl
            | some x => rw [hfind] at h2; simp at h2

theorem predecessorsOf_addEdge_of_ne {st : GlobalLayerState}
    {e : String × String} {v : String} (hv : v ≠ e.2) :
    predecessorsOf (addEdge st e) v = predecessorsOf st v := by
  unfold predecessorsOf
  rw [edges_addEdge]
  split
  · unfold insertUnique
    split
    · rfl
    · rw [List.filter_append]
      have : (e.2 == v) = false := by
        simp only [beq_eq_false_iff_ne, ne_eq]
        exact fun hh => hv hh.symm
      simp [this]
  · rfl

theorem computeLayer_addEdge {st : GlobalLayerState} {e : String × String}
    {v : String} (hWF : WFState st) (hv : v ≠ e.2) :
    computeLayer (addEdge st e) v = computeLayer st v := by
  apply computeLayer_congr (predecessorsOf_addEdge_of_ne hv)
  intro p hp
  exact find_addEdge_of_isSome (hWF _ (mem_predecessorsOf.mp hp)).1

theorem WF_addEdge {st : GlobalLayerState} (e : String × String)
    (hWF : WFState st) : WFState (addEdge st e) := by
  by_cases hval : validEdge e
  · intro a ha
    rw [edges_addEdge, if_pos hval] at ha
    rcases mem_insertUnique.mp ha with ha | rfl
    · obtain ⟨h1, h2, h3⟩ := hWF a ha
      exact ⟨hasVertex_addEdge.mpr (Or.inl h1),
        hasVertex_addEdge.mpr (Or.inl h2), h3⟩
    · exact ⟨hasVertex_addEdge.mpr (Or.inr ⟨hval, Or.inl rfl⟩),
        hasVertex_addEdge.mpr (Or.inr ⟨hval, Or.inr rfl⟩), hval.2.2⟩
  · rw [addEdge_of_invalid hval]
    exact hWF

theorem DirtyInv_addEdge {st : GlobalLayerState} (e : String × String)
    (hWF : WFState st) (hInv : DirtyInv st) : DirtyInv (addEdge st e) := by
  by_cases hval : validEdge e
  · intro v hviol
    rw [dirty_addEdge, if_pos hval, mem_insertUnique]
    by_cases hv2 : v = e.2
    · exact Or.inr hv2
    · left
      apply hInv
      rw [layerOf_addEdge st e v, computeLayer_addEdge hWF hv2] at hviol
      exact hviol
  · rw [addEdge_of_invalid hval]
    exact hInv

theorem edges_addEdgesBatch {st : GlobalLayerState}
    {es : List (String × String)} {a : String × String} :
    a ∈ (addEdgesBatch st es).edges ↔
      a ∈ st.edges ∨ (validEdge a ∧ a ∈ es) := by
  induction es generalizing st with
  | nil => simp [addEdgesBatch]
  | cons e rest ih =>
    have hstep : addEdgesBatch st (e :: rest) = addEdgesBatch (addEdge st e) rest := rfl
    rw [hstep, ih, edges_addEdge]
    by_cases hval : validEdge e
    · rw [if_pos hval]
      constructor
      · rintro (hm | hrest)
        · rcases mem_insertUnique.mp hm with h | rfl
          · exact Or.inl h
          · exact Or.inr ⟨hval, List.mem_cons_self _ _⟩
        · exact Or.inr ⟨hrest.1, List.mem_cons_of_mem _ hrest.2⟩
      · rintro (h | ⟨hva, hmem⟩)
        · exact Or.inl (mem_insertUnique.mpr (Or.inl h))
        · rcases List.mem_cons.mp hmem with rfl | h
          · exact Or.inl (mem_insertUnique.mpr (Or.inr rfl))
          · exact Or.inr ⟨hva, h⟩
    · rw [if_neg hval]
      constructor
      · rintro (h | hrest)
        · exact Or.inl h
        · exact Or.inr ⟨hrest.1, List.mem_cons_of_mem _ hrest.2⟩
      · rintro (h | ⟨hva, hmem⟩)
        · exact Or.inl h
        · rcases List.mem_cons.mp hmem with rfl | h
          · exact absurd hva hval
          · exact Or.inr ⟨hva, h⟩

theorem hasVertex_addEdgesBatch {st : GlobalLayerState}
    {es : List (String × String)} {v : String} :
    hasVertex (addEdgesBatch st es) v ↔
      hasVertex st v ∨ ∃ e, e ∈ es ∧ validEdge e ∧ (v = e.1 ∨ v = e.2) := by
  induction es generalizing st with
  | nil => simp [addEdgesBatch]
  | cons e rest ih =>
    have hstep : addEdgesBatch st (e :: rest) = addEdgesBatch (addEdge st e) rest := rfl
    rw [hstep, ih, hasVertex_addEdge]
    constructor
    · rintro ((h | ⟨hval, hor⟩) | ⟨e', he', hval', hor'⟩)
      · exact Or.inl h
      · exact Or.inr ⟨e, List.mem_cons_self _ _, hval, hor⟩
      · exact Or.inr ⟨e', List.mem_cons_of_mem _ he', hval', hor'⟩
    · rintro (h | ⟨e', he', hval', hor'⟩)
      · exact Or.inl (Or.inl h)
      · rcases List.mem_cons.mp he' with rfl | h
        · exact Or.inl (Or.inr ⟨hval', hor'⟩)
        · exact Or.inr ⟨e', h, hval', hor'⟩

theorem WF_addEdgesBatch {st : GlobalLayerState} (es : List (String × String))
    (hWF : WFState st) : WFState (addEdgesBatch st es) := by
  induction es generalizing st with
  | nil => exact hWF
  | cons e rest ih => exact ih (WF_addEdge e hWF)

theorem DirtyInv_addEdgesBatch {st : GlobalLayerState}
    (es : List (String × String)) (hWF : WFState st) (hInv : DirtyInv st) :
    DirtyInv (addEdgesBatch st es) := by
  induction es generalizing st with
  | nil => exact hInv
  | cons e rest ih => exact ih (WF_addEdge e hWF) (DirtyInv_addEdge e hWF hInv)

/-- The state obtained after loading a list of batches into a fresh
`GlobalLayerState`. -/
def loadState (batches : List (List (String × String))) : GlobalLayerState :=
  batches.foldl addEdgesBatch initialState

theorem WF_initialState : WFState initialState := by
  intro e he
  simp [initialState] at he

theorem DirtyInv_initialState : DirtyInv initialState := by
  intro v hv
  simp [layerOf, computeLayer, predecessorsOf, initialState, VMap.find] at hv

theorem WF_loadState (bs : List (List (String × String))) :
    WFState (loadState bs) := by
  unfold loadState
  induction bs using List.reverseRecOn with
  | nil => exact WF_initialState
  | append_singleton rest b ih =>
    rw [List.foldl_append]
    exact WF_addEdgesBatch b ih

theorem DirtyInv_loadState (bs : List (List (String × String))) :
    DirtyInv (loadState bs) := by
  have : ∀ (l : List (List (String × String))) (st : GlobalLayerState),
      WFState st → DirtyInv st → DirtyInv (l.foldl addEdgesBatch st) := by
    intro l
    induction l with
    | nil => exact fun st _ h => h
    | cons b rest ih =>
      intro st hWF hInv
      exact ih _ (WF_addEdgesBatch b hWF) (DirtyInv_addEdgesBatch b hWF hInv)
  exact this bs initialState WF_initialState DirtyInv_initialState

theorem mem_edges_loadState {bs : List (List (String × String))}
    {a : String × String} :
    a ∈ (loadState bs).edges ↔ validEdge a ∧ a ∈ bs.flatten := by
  have : ∀ (l : List (List (String × String))) (st : GlobalLayerState),
      a ∈ (l.foldl addEdgesBatch st).edges ↔
        a ∈ st.edges ∨ (validEdge a ∧ a ∈ l.flatten) := by
    intro l
    induction l with
    | nil => simp
    | cons b rest ih =>
      intro st
      rw [List.foldl_cons, ih, edges_addEdgesBatch]
      simp only [List.flatten_cons, List.mem_append]
      tauto
  rw [loadState, this bs initialState]
  simp [initialState]

theorem hasVertex_loadState {bs : List (List (String × String))} {v : String} :
    hasVertex (loadState bs) v ↔
      ∃ e, e ∈ bs.flatten ∧ validEdge e ∧ (v = e.1 ∨ v = e.2) := by
  have : ∀ (l : List (List (String × String))) (st : GlobalLayerState),
      hasVertex (l.foldl addEdgesBatch st) v ↔
        hasVertex st v ∨ ∃ e, e ∈ l.flatten ∧ validEdge e ∧ (v = e.1 ∨ v = e.2) := by
    intro l
    induction l with
    | nil => simp
    | cons b rest ih =>
      intro st
      rw [List.foldl_cons, ih, hasVertex_addEdgesBatch]
      simp only [List.flatten_cons, List.mem_append]
      constructor
      · rintro ((h | ⟨e, he, hv, hor⟩) | ⟨e, he, hv, hor⟩)
        · exact Or.inl h
        · exact Or.inr ⟨e, Or.inl he, hv, hor⟩
        · exact Or.inr ⟨e, Or.inr he, hv, hor⟩
      · rintro (h | ⟨e, he | he, hv, hor⟩)
        · exact Or.inl (Or.inl h)
        · exact Or.inl (Or.inr ⟨e, he, hv, hor⟩)
        · exact Or.inr ⟨e, he, hv, hor⟩
  rw [loadState, this bs initialState]
  have hinit : ¬ hasVertex initialState v := by
    simp [hasVertex, initialState, VMap.find]
  constructor
  · rintro (h | h)
    · exact absurd h hinit
    · exact h
  · exact Or.inr

/-! ## Soundness of the worklist propagation

Whenever the worklist loop of `propagate_layers` drains its queue, the
resulting state is a fixed point of the recomputation rule: the loop invariant
is that every vertex violating the rule sits in the queue, and every update
re-enqueues exactly the successors whose rule value it may have changed. -/

theorem propagateLoop_sound :
    ∀ (fuel : Nat) (st : GlobalLayerState) (queue : List String)
      (updated : Nat) (st' : GlobalLayerState) (updated' : Nat),
      propagateLoop fuel st queue updated = some (st', updated') →
      WFState st →
      (∀ v, layerOf st v ≠ computeLayer st v → v ∈ queue) →
      IsFixedPoint st' ∧ WFState st' ∧ st'.edges = st.edges ∧
        st'.dirtyVertices = st.dirtyVertices ∧
        (∀ v, hasVertex st' v ↔ hasVertex st v) := by
  intro fuel
  induction fuel with
  | zero =>
    intro st queue updated st' updated' h hWF hQ
    cases queue with
    | nil =>
      rw [propagateLoop] at h
      obtain ⟨rfl, rfl⟩ : st = st' ∧ updated = updated' := by
        simpa using h
      refine ⟨fun v => ?_, hWF, rfl, rfl, fun v => Iff.rfl⟩
      by_contra hne
      exact absurd (hQ v hne) (List.not_mem_nil v)
    | cons v queue => simp [propagateLoop] at h
  | succ n ih =>
    intro st queue updated st' updated' h hWF hQ
    cases queue with
    | nil =>
      rw [propagateLoop] at h
      obtain ⟨rfl, rfl⟩ : st = st' ∧ updated = updated' := by
        simpa using h
      refine ⟨fun v => ?_, hWF, rfl, rfl, fun v => Iff.rfl⟩
      by_contra hne
      exact absurd (hQ v hne) (List.not_mem_nil v)
    | cons v queue =>
      rw [propagateLoop] at h
      by_cases hif : computeLayer st v = layerOf st v
      · rw [if_pos hif] at h
        apply ih st queue updated st' updated' h hWF
        intro w hw
        rcases List.mem_cons.mp (hQ w hw) with rfl | hmem
        · exact absurd hif.symm hw
        · exact hmem
      · rw [if_neg hif] at h
        -- The recomputed value differs, so `v` must already be recorded:
        -- an unrecorded vertex has no recorded incoming edge (`WFState`),
        -- hence rule value 0 = stored default 0.
        have hKey : hasVertex st v := by
          by_contra hnk
          have hfind : VMap.find st.vertexLayers v = none := by
            cases hf : VMap.find st.vertexLayers v with
            | none => rfl
            | some x => exact absurd (by rw [hasVertex, hf]; rfl) hnk
          have hpreds : predecessorsOf st v = [] := by
            rw [List.eq_nil_iff_forall_not_mem]
            intro p hp
            have := (hWF _ (mem_predecessorsOf.mp hp)).2.1
            exact hnk this
          have h0 : computeLayer st v = 0 := by
            rw [computeLayer, hpreds]
            rfl
          have h0' : layerOf st v = 0 := by
            rw [layerOf, hfind]
            rfl
          exact hif (h0.trans h0'.symm)
        set st2 : GlobalLayerState :=
          { st with vertexLayers := VMap.insert st.vertexLayers v (computeLayer st v) }
          with hst2
        have hL : ∀ w, layerOf st2 w =
            if v = w then computeLayer st v else layerOf st w := by
          intro w
          rw [layerOf, hst2]
          simp only
          rw [VMap.find_insert]
          split
          · rfl
          · rfl
        have hvpred : v ∉ predecessorsOf st v := by
          intro hmem
          exact (hWF _ (mem_predecessorsOf.mp hmem)).2.2 rfl
        have hC : ∀ w, v ∉ predecessorsOf st w →
            computeLayer st2 w = computeLayer st w := by
          intro w hw
          refine computeLayer_congr rfl ?_
          intro p hp
          rw [hst2]
          simp only
          rw [VMap.find_insert, if_neg]
          intro hvp
          exact hw (hvp ▸ hp)
        have hH : ∀ w, hasVertex st2 w ↔ hasVertex st w := by
          intro w
          rw [hasVertex, hasVertex, hst2]
          simp only
          rw [VMap.find_insert]
          by_cases hvw : v = w
          · rw [if_pos hvw, ← hvw]
            exact ⟨fun _ => hKey, fun _ => rfl⟩
          · rw [if_neg hvw]
        have hWF2 : WFState st2 := by
          intro a ha
          obtain ⟨h1, h2, h3⟩ := hWF a ha
          exact ⟨(hH a.1).mpr h1, (hH a.2).mpr h2, h3⟩
        have hQ2 : ∀ w, layerOf st2 w ≠ computeLayer st2 w →
            w ∈ queue ++ successorsOf st v := by
          intro w hw
          rw [List.mem_append]
          by_cases hvw : v = w
          · exfalso
            apply hw
            rw [hL w, if_pos hvw, ← hvw, hC v hvpred]
          · by_cases hpred : v ∈ predecessorsOf st w
            · right
              rw [mem_successorsOf]
              exact mem_predecessorsOf.mp hpred
            · left
              rw [hL w, if_neg hvw, hC w hpred] at hw
              rcases List.mem_cons.mp (hQ w hw) with rfl | hmem
              · exact absurd rfl hvw
              · exact hmem
        obtain ⟨hfp, hwf, hedges, hdirty, hvert⟩ :=
          ih st2 (queue ++ successorsOf st v) (updated + 1) st' updated' h hWF2 hQ2
        exact ⟨hfp, hwf, hedges, hdirty, fun w => (hvert w).trans (hH w)⟩

theorem propagateLayers_sound {fuel : Nat} {st st' : GlobalLayerState} {u : Nat}
    (h : propagateLayers fuel st = some (st', u)) (hWF : WFState st)
    (hInv : DirtyInv st) :
    IsFixedPoint st' ∧ WFState st' ∧ st'.edges = st.edges ∧
      st'.dirtyVertices = [] ∧ (∀ v, hasVertex st' v ↔ hasVertex st v) := by
  rw [propagateLayers] at h
  by_cases hd : st.dirtyVertices = []
  · rw [if_pos hd] at h
    obtain ⟨rfl, rfl⟩ : st = st' ∧ 0 = u := by simpa using h
    refine ⟨fun v => ?_, hWF, rfl, hd, fun v => Iff.rfl⟩
    by_contra hne
    have hmem := hInv v hne
    rw [hd] at hmem
    exact absurd hmem (List.not_mem_nil v)
  · rw [if_neg hd] at h
    obtain ⟨hfp, hwf, hedges, hdirty, hvert⟩ :=
      propagateLoop_sound fuel { st with dirtyVertices := [] }
        st.dirtyVertices 0 st' u h hWF (fun v hv => hInv v hv)
    exact ⟨hfp, hwf, hedges, hdirty, hvert⟩

theorem propagateAux_sound {fuel : Nat} :
    ∀ {remaining : Nat} {st st' : GlobalLayerState} {total total' : Nat},
      remaining ≠ 0 →
      propagateAux fuel remaining st total = some (st', total') →
      WFState st → DirtyInv st →
      IsFixedPoint st' ∧ WFState st' ∧ st'.edges = st.edges ∧
        (∀ v, hasVertex st' v ↔ hasVertex st v) := by
  intro remaining
  induction remaining with
  | zero => intro st st' total total' hne; exact absurd rfl hne
  | succ r ih =>
    intro st st' total total' _ h hWF hInv
    rw [propagateAux] at h
    cases hp : propagateLayers fuel st with
    | none => rw [hp] at h; simp at h
    | some p =>
      obtain ⟨st1, u⟩ := p
      rw [hp] at h
      simp only at h
      obtain ⟨hfp1, hwf1, hedges1, hdirty1, hvert1⟩ :=
        propagateLayers_sound hp hWF hInv
      by_cases hu : u = 0
      · rw [if_pos hu] at h
        obtain ⟨rfl, rfl⟩ : st1 = st' ∧ total + u = total' := by simpa using h
        exact ⟨hfp1, hwf1, hedges1, hvert1⟩
      · rw [if_neg hu] at h
        by_cases hr : r = 0
        · rw [if_pos hr] at h
          obtain ⟨rfl, rfl⟩ : st1 = st' ∧ total + u = total' := by simpa using h
          exact ⟨hfp1, hwf1, hedges1, hvert1⟩
        · rw [if_neg hr] at h
          have hInv1 : DirtyInv st1 := fun v hv => absurd (hfp1 v) hv
          obtain ⟨hfp, hwf, hedges, hvert⟩ := ih hr h hwf1 hInv1
          exact ⟨hfp, hwf, hedges.trans hedges1,
            fun v => (hvert v).trans (hvert1 v)⟩

/-- Any completed run of `add_edges_batch` calls followed by
`propagate_until_convergence` ends in a fixed point of the layer rule, over
exactly the valid edges and their endpoints. -/
theorem processBatches_sound {bs : List (List (String × String))} {fuel : Nat}
    {st' : GlobalLayerState} (h : processBatches bs fuel = some st') :
    IsFixedPoint st' ∧ WFState st' ∧
      (∀ a, a ∈ st'.edges ↔ validEdge a ∧ a ∈ bs.flatten) ∧
      (∀ v, hasVertex st' v ↔
        ∃ e, e ∈ bs.flatten ∧ validEdge e ∧ (v = e.1 ∨ v = e.2)) := by
  rw [processBatches, propagateUntilConvergence] at h
  cases hp : propagateAux fuel 100 (loadState bs) 0 with
  | none => rw [show List.foldl addEdgesBatch initialState bs = loadState bs from rfl, hp] at h; simp at h
  | some p =>
    obtain ⟨st1, total⟩ := p
    rw [show List.foldl addEdgesBatch initialState bs = loadState bs from rfl, hp] at h
    obtain rfl : st1 = st' := by simpa using h
    obtain ⟨hfp, hwf, hedges, hvert⟩ :=
      propagateAux_sound (by norm_num) hp (WF_loadState bs) (DirtyInv_loadState bs)
    refine ⟨hfp, hwf, ?_, ?_⟩
    · intro a
      rw [hedges, mem_edges_loadState]
    · intro v
      rw [hvert v, hasVertex_loadState]

/-! ## Consequences of being a fixed point -/

theorem int_max?_spec {l : List Int} {m : Int} (h : l.max? = some m) :
    m ∈ l ∧ ∀ b ∈ l, b ≤ m := by
  exact (@List.max?_eq_some_iff Int m _ _ ⟨fun h1 h2 => le_antisymm h1 h2⟩
    (fun a => le_refl a) (fun a b => max_choice a b)
    (fun a b c => max_le_iff) l).mp h

theorem int_max?_congr {l1 l2 : List Int} (h : ∀ x, x ∈ l1 ↔ x ∈ l2) :
    l1.max? = l2.max? := by
  cases h1 : l1.max? with
  | none =>
    rw [List.max?_eq_none_iff] at h1
    cases h2 : l2.max? with
    | none => rfl
    | some m =>
      have hm : m ∈ l2 := List.max?_mem (fun a b => max_choice a b) h2
      have : m ∈ l1 := (h m).mpr hm
      rw [h1] at this
      exact absurd this (List.not_mem_nil m)
  | some m1 =>
    obtain ⟨hm1, hb1⟩ := int_max?_spec h1
    cases h2 : l2.max? with
    | none =>
      rw [List.max?_eq_none_iff] at h2
      have : m1 ∈ l2 := (h m1).mp hm1
      rw [h2] at this
      exact absurd this (List.not_mem_nil m1)
    | some m2 =>
      obtain ⟨hm2, hb2⟩ := int_max?_spec h2
      rw [le_antisymm (hb2 m1 ((h m1).mp hm1)) (hb1 m2 ((h m2).mpr hm2))]

theorem exists_max?_ge {l : List Int} {x : Int} (hx : x ∈ l) :
    ∃ m, l.max? = some m ∧ x ≤ m := by
  cases h : l.max? with
  | none =>
    rw [List.max?_eq_none_iff] at h
    rw [h] at hx
    exact absurd hx (List.not_mem_nil x)
  | some m => exact ⟨m, rfl, (int_max?_spec h).2 x hx⟩

/-- At a fixed point of the layer rule every recorded edge goes strictly
upward: `layer(target) = max(pred layers) + 1 > layer(source)`. -/
theorem fixedPoint_edge_lt {st : GlobalLayerState} (hWF : WFState st)
    (hfp : IsFixedPoint st) :
    ∀ e ∈ st.edges, layerOf st e.1 < layerOf st e.2 := by
  intro e he
  have hpred : e.1 ∈ predecessorsOf st e.2 :=
    mem_predecessorsOf.mpr (by simpa using he)
  have hfind : VMap.find st.vertexLayers e.1 = some (layerOf st e.1) :=
    find_eq_some_layerOf (hWF e he).1
  have hval : layerOf st e.1 ∈ (predecessorsOf st e.2).filterMap
      (fun p => VMap.find st.vertexLayers p) := by
    rw [List.mem_filterMap]
    exact ⟨e.1, hpred, hfind⟩
  obtain ⟨m, hm, hle⟩ := exists_max?_ge hval
  have hcl : computeLayer st e.2 = m + 1 := by
    unfold computeLayer
    rw [hm]
  rw [hfp e.2, hcl]
  omega

theorem validateLayers_eq_zero_of_fixedPoint {st : GlobalLayerState}
    (hWF : WFState st) (hfp : IsFixedPoint st) : validateLayers st = 0 := by
  rw [validateLayers, List.countP_eq_zero]
  intro e he
  have := fixedPoint_edge_lt hWF hfp e he
  simp only [decide_eq_true_eq]
  omega

/-- Two fixed points over the same edge set and vertex set carry the same
layer map: induction along any rank function certifying acyclicity. -/
theorem fixedPoint_unique {st1 st2 : GlobalLayerState} (rank : String → Nat)
    (hWF1 : WFState st1) (hWF2 : WFState st2)
    (hE : ∀ e, e ∈ st1.edges ↔ e ∈ st2.edges)
    (hV : ∀ v, hasVertex st1 v ↔ hasVertex st2 v)
    (hrank : ∀ e ∈ st1.edges, rank e.1 < rank e.2)
    (h1 : IsFixedPoint st1) (h2 : IsFixedPoint st2) :
    ∀ v, VMap.find st1.vertexLayers v = VMap.find st2.vertexLayers v := by
  have main : ∀ n v, rank v = n → layerOf st1 v = layerOf st2 v := by
    intro n
    induction n using Nat.strong_induction_on with
    | _ n ih =>
      intro v hn
      rw [h1 v, h2 v]
      unfold computeLayer
      have hiff : ∀ x,
          x ∈ (predecessorsOf st1 v).filterMap
            (fun p => VMap.find st1.vertexLayers p) ↔
          x ∈ (predecessorsOf st2 v).filterMap
            (fun p => VMap.find st2.vertexLayers p) := by
        intro x
        rw [List.mem_filterMap, List.mem_filterMap]
        constructor
        · rintro ⟨p, hp, hfind⟩
          have hedge1 : (p, v) ∈ st1.edges := mem_predecessorsOf.mp hp
          have hedge2 : (p, v) ∈ st2.edges := (hE _).mp hedge1
          have hkey1 : hasVertex st1 p := (hWF1 _ hedge1).1
          have hkey2 : hasVertex st2 p := (hV p).mp hkey1
          have heq : layerOf st1 p = layerOf st2 p := by
            refine ih (rank p) ?_ p rfl
            rw [← hn]
            exact hrank _ hedge1
          refine ⟨p, mem_predecessorsOf.mpr hedge2, ?_⟩
          rw [find_eq_some_layerOf hkey2, ← heq, ← find_eq_some_layerOf hkey1,
            hfind]
        · rintro ⟨p, hp, hfind⟩
          have hedge2 : (p, v) ∈ st2.edges := mem_predecessorsOf.mp hp
          have hedge1 : (p, v) ∈ st1.edges := (hE _).mpr hedge2
          have hkey1 : hasVertex st1 p := (hWF1 _ hedge1).1
          have hkey2 : hasVertex st2 p := (hV p).mp hkey1
          have heq : layerOf st1 p = layerOf st2 p := by
            refine ih (rank p) ?_ p rfl
            rw [← hn]
            exact hrank _ hedge1
          refine ⟨p, mem_predecessorsOf.mpr hedge1, ?_⟩
          rw [find_eq_some_layerOf hkey1, heq, ← find_eq_some_layerOf hkey2,
            hfind]
      rw [int_max?_congr hiff]
  intro v
  by_cases hv : hasVertex st1 v
  · have hv2 := (hV v).mp hv
    rw [find_eq_some_layerOf hv, find_eq_some_layerOf hv2, main (rank v) v rfl]
  · have hv2 : ¬ hasVertex st2 v := fun hh => hv ((hV v).mpr hh)
    have e1 : VMap.find st1.vertexLayers v = none := by
      cases hf : VMap.find st1.vertexLayers v with
      | none => rfl
      | some x => exact absurd (by rw [hasVertex, hf]; rfl) hv
    have e2 : VMap.find st2.vertexLayers v = none := by
      cases hf : VMap.find st2.vertexLayers v with
      | none => rfl
      | some x => exact absurd (by rw [hasVertex, hf]; rfl) hv2
    rw [e1, e2]

/-! ## Claim theorems: global layer state -/

/-- **C1** — Batch-splitting insensitivity: for a finite edge set `E` over a
DAG (witnessed by a rank function increasing along every valid edge), feeding
`E` as one `add_edges_batch` call followed by `propagate_until_convergence`
produces exactly the same final layer map (`get_layer_map`) as feeding any
batch decomposition `bs` covering the same edges, in any order, with
convergence run after the final batch. -/
theorem batch_split_insensitive
    (E : List (String × String)) (bs : List (List (String × String)))
    (rank : String → Nat)
    (hrank : ∀ e ∈ E, validEdge e → rank e.1 < rank e.2)
    (hsub1 : ∀ e ∈ bs.flatten, e ∈ E) (hsub2 : ∀ e ∈ E, e ∈ bs.flatten)
    (fuel1 fuel2 : Nat) (st1 st2 : GlobalLayerState)
    (h1 : processBatches [E] fuel1 = some st1)
    (h2 : processBatches bs fuel2 = some st2) :
    ∀ v, VMap.find (getLayerMap st1) v = VMap.find (getLayerMap st2) v := by
  obtain ⟨hfp1, hwf1, hedges1, hvert1⟩ := processBatches_sound h1
  obtain ⟨hfp2, hwf2, hedges2, hvert2⟩ := processBatches_sound h2
  have hflat1 : ([E] : List (List (String × String))).flatten = E := by simp
  have hE : ∀ e, e ∈ st1.edges ↔ e ∈ st2.edges := by
    intro e
    rw [hedges1, hedges2, hflat1]
    exact ⟨fun ⟨hv, he⟩ => ⟨hv, hsub2 e he⟩, fun ⟨hv, he⟩ => ⟨hv, hsub1 e he⟩⟩
  have hV : ∀ v, hasVertex st1 v ↔ hasVertex st2 v := by
    intro v
    rw [hvert1, hvert2, hflat1]
    constructor
    · rintro ⟨e, he, hv, hor⟩
      exact ⟨e, hsub2 e he, hv, hor⟩
    · rintro ⟨e, he, hv, hor⟩
      exact ⟨e, hsub1 e he, hv, hor⟩
  have hrank' : ∀ e ∈ st1.edges, rank e.1 < rank e.2 := by
    intro e he
    obtain ⟨hv, hmem⟩ := (hedges1 e).mp he
    rw [hflat1] at hmem
    exact hrank e hmem hv
  exact fixedPoint_unique rank hwf1 hwf2 hE hV hrank' hfp1 hfp2

/-- Closed witness for `batch_split_insensitive`: the 4-chain
`A→B→C→D→E` processed as one batch versus two batches applied in reversed
order gives the same layer map. -/
theorem batch_split_insensitive_witness :
    ∃ st1 st2,
      processBatches [[("A", "B"), ("B", "C"), ("C", "D"), ("D", "E")]] 64 =
        some st1 ∧
      processBatches [[("C", "D"), ("D", "E")], [("A", "B"), ("B", "C")]] 64 =
        some st2 ∧
      ∀ v, VMap.find (getLayerMap st1) v = VMap.find (getLayerMap st2) v := by
  have h1 : (processBatches
      [[("A", "B"), ("B", "C"), ("C", "D"), ("D", "E")]] 64).isSome = true := by
    decide
  have h2 : (processBatches
      [[("C", "D"), ("D", "E")], [("A", "B"), ("B", "C")]] 64).isSome = true := by
    decide
  obtain ⟨st1, hst1⟩ := Option.isSome_iff_exists.mp h1
  obtain ⟨st2, hst2⟩ := Option.isSome_iff_exists.mp h2
  refine ⟨st1, st2, hst1, hst2, ?_⟩
  refine batch_split_insensitive
    [("A", "B"), ("B", "C"), ("C", "D"), ("D", "E")]
    [[("C", "D"), ("D", "E")], [("A", "B"), ("B", "C")]]
    (fun s => if s = "A" then 0 else if s = "B" then 1 else if s = "C" then 2
      else if s = "D" then 3 else 4)
    ?_ ?_ ?_ 64 64 st1 st2 hst1 hst2
  · decide
  · decide
  · decide

/-- **C2** — Layer monotonicity after convergence: for an acyclic edge set
(certified by a rank function), once `propagate_until_convergence` has
completed, every recorded edge `(s, t)` satisfies `layer(s) < layer(t)` and
`validate_layers` reports 0 violations.  (A completed propagation pass is
always a fixed point of the layer rule, so the acyclicity certificate is not
even needed by the proof.) -/
theorem converged_layers_strictly_increase
    (bs : List (List (String × String))) (fuel : Nat)
    (st' : GlobalLayerState) (rank : String → Nat)
    (hrank : ∀ e ∈ bs.flatten, validEdge e → rank e.1 < rank e.2)
    (h : processBatches bs fuel = some st') :
    (∀ e ∈ st'.edges, layerOf st' e.1 < layerOf st' e.2) ∧
      validateLayers st' = 0 := by
  obtain ⟨hfp, hwf, _, _⟩ := processBatches_sound h
  exact ⟨fixedPoint_edge_lt hwf hfp, validateLayers_eq_zero_of_fixedPoint hwf hfp⟩

/-- Closed witness for `converged_layers_strictly_increase` on the diamond
graph of the Rust unit test `test_diamond_graph`. -/
theorem converged_layers_strictly_increase_witness :
    ∃ st, processBatches [[("A", "B"), ("A", "C"), ("B", "D"), ("C", "D")]] 64 =
        some st ∧
      (∀ e ∈ st.edges, layerOf st e.1 < layerOf st e.2) ∧
      validateLayers st = 0 := by
  have h : (processBatches
      [[("A", "B"), ("A", "C"), ("B", "D"), ("C", "D")]] 64).isSome = true := by
    decide
  obtain ⟨st, hst⟩ := Option.isSome_iff_exists.mp h
  refine ⟨st, hst, ?_⟩
  exact converged_layers_strictly_increase
    [[("A", "B"), ("A", "C"), ("B", "D"), ("C", "D")]] 64 st
    (fun s => if s = "A" then 0 else if s = "B" then 1 else if s = "C" then 1
      else 2)
    (by decide) hst

/-- **C4** — Source vertices stay at layer 0: after any sequence of
`add_edges_batch` calls and a completed `propagate_until_convergence`, every
recorded vertex with no recorded incoming edge has layer 0, regardless of
batch order. -/
theorem no_incoming_vertex_layer_zero
    (bs : List (List (String × String))) (fuel : Nat)
    (st' : GlobalLayerState) (v : String)
    (h : processBatches bs fuel = some st')
    (hv : hasVertex st' v)
    (hnoinc : ∀ e ∈ st'.edges, e.2 ≠ v) :
    layerOf st' v = 0 := by
  obtain ⟨hfp, _, _, _⟩ := processBatches_sound h
  have hpreds : predecessorsOf st' v = [] := by
    rw [List.eq_nil_iff_forall_not_mem]
    intro p hp
    exact hnoinc _ (mem_predecessorsOf.mp hp) rfl
  rw [hfp v]
  unfold computeLayer
  rw [hpreds]
  rfl

/-- Closed witness for `no_incoming_vertex_layer_zero`: in the two-batch chain
`X→Y`, `Y→Z` (second batch first), vertex `X` has no incoming edge and layer
0. -/
theorem no_incoming_vertex_layer_zero_witness :
    ∃ st, processBatches [[("Y", "Z")], [("X", "Y")]] 64 = some st ∧
      layerOf st "X" = 0 := by
  have h : (processBatches [[("Y", "Z")], [("X", "Y")]] 64).isSome = true := by
    decide
  obtain ⟨st, hst⟩ := Option.isSome_iff_exists.mp h
  refine ⟨st, hst, ?_⟩
  refine no_incoming_vertex_layer_zero [[("Y", "Z")], [("X", "Y")]] 64 st "X"
    hst ?_ ?_
  · obtain ⟨_, _, _, hvert⟩ := processBatches_sound hst
    rw [hvert]
    exact ⟨("X", "Y"), by simp, by decide, Or.inl rfl⟩
  · intro e he
    obtain ⟨_, _, hedges, _⟩ := processBatches_sound hst
    have := (hedges e).mp he
    simp only [List.flatten_cons, List.flatten_nil, List.mem_append,
      List.mem_cons, List.not_mem_nil, or_false, List.append_nil] at this
    rcases this.2 with rfl | rfl
    · decide
    · decide

/-! ## C3: the propagation worklist diverges on a cycle

On the 2-cycle `A→B→A` the inner worklist loop of `propagate_layers` never
empties its queue: each recomputation raises one layer by 2 and re-enqueues
the other vertex.  The 100-iteration safety cap of
`propagate_until_convergence` counts completed `propagate_layers` passes, so
it is never consulted: the first pass never returns. -/

/-- The recurring two-vertex state of the diverging run: layers `A ↦ a`,
`B ↦ b` over the 2-cycle, with the dirty set already drained. -/
def cycState (a b : Int) : GlobalLayerState :=
  ⟨[("A", a), ("B", b)], [("A", "B"), ("B", "A")], []⟩

theorem cyc_loop_none (fuel : Nat) :
    (∀ (b : Int) (c : Nat),
      propagateLoop fuel (cycState (b + 1) b) ["B"] c = none) ∧
    (∀ (a : Int) (c : Nat),
      propagateLoop fuel (cycState a (a + 1)) ["A"] c = none) := by
  induction fuel with
  | zero => exact ⟨fun _ _ => rfl, fun _ _ => rfl⟩
  | succ n ih =>
    constructor
    · intro b c
      rw [propagateLoop]
      have hne : ¬ (computeLayer (cycState (b + 1) b) "B" =
          layerOf (cycState (b + 1) b) "B") := by
        have h1 : computeLayer (cycState (b + 1) b) "B" = b + 1 + 1 := rfl
        have h2 : layerOf (cycState (b + 1) b) "B" = b := rfl
        rw [h1, h2]
        omega
      rw [if_neg hne]
      exact ih.2 (b + 1) (c + 1)
    · intro a c
      rw [propagateLoop]
      have hne : ¬ (computeLayer (cycState a (a + 1)) "A" =
          layerOf (cycState a (a + 1)) "A") := by
        have h1 : computeLayer (cycState a (a + 1)) "A" = a + 1 + 1 := rfl
        have h2 : layerOf (cycState a (a + 1)) "A" = a := rfl
        rw [h1, h2]
        omega
      rw [if_neg hne]
      exact ih.1 (a + 1) (c + 1)

theorem cyc_initial_none :
    ∀ (fuel : Nat) (c : Nat),
      propagateLoop fuel (cycState 0 0) ["B", "A"] c = none := by
  intro fuel
  match fuel with
  | 0 => intro c; rfl
  | 1 => intro c; rfl
  | 2 => intro c; rfl
  | n + 3 =>
    intro c
    rw [propagateLoop, if_neg (by decide : ¬ (computeLayer (cycState 0 0) "B" =
      layerOf (cycState 0 0) "B"))]
    show propagateLoop (n + 2) (cycState 0 1) ["A", "A"] (c + 1) = none
    rw [propagateLoop, if_neg (by decide : ¬ (computeLayer (cycState 0 1) "A" =
      layerOf (cycState 0 1) "A"))]
    show propagateLoop (n + 1) (cycState 2 1) ["A", "B"] (c + 2) = none
    rw [propagateLoop, if_pos (by decide : computeLayer (cycState 2 1) "A" =
      layerOf (cycState 2 1) "A")]
    exact (cyc_loop_none n).1 1 (c + 2)

/-- **C3** — Contrary to the claim, `propagate_until_convergence` does not
terminate on cyclic input: on the 2-cycle `A→B→A` the inner worklist loop of
the very first `propagate_layers` pass runs forever (for every fuel bound the
fueled model reports an unfinished run), so the 100-iteration safety cap —
which only bounds the number of completed passes — is never reached and no
partial layer map is ever returned.  The claim (and the spec) describe the
intended behaviour of the safety cap; the code puts the cap around the wrong
loop. -/
theorem propagate_diverges_on_two_cycle :
    ∀ fuel : Nat,
      processBatches [[("A", "B"), ("B", "A")]] fuel = none := by
  intro fuel
  have hload : loadState [[("A", "B"), ("B", "A")]] =
      ⟨[("A", 0), ("B", 0)], [("A", "B"), ("B", "A")], ["B", "A"]⟩ := by decide
  have hnone : propagateLayers fuel (loadState [[("A", "B"), ("B", "A")]]) =
      none := by
    rw [propagateLayers, if_neg (by rw [hload]; decide)]
    rw [hload]
    exact cyc_initial_none fuel 0
  have haux : ∀ (r : Nat) (t : Nat),
      propagateAux fuel (r + 1) (loadState [[("A", "B"), ("B", "A")]]) t =
        none := by
    intro r t
    rw [propagateAux, hnone]
  rw [processBatches, propagateUntilConvergence,
    show List.foldl addEdgesBatch initialState [[("A", "B"), ("B", "A")]] =
      loadState [[("A", "B"), ("B", "A")]] from rfl,
    show (100 : Nat) = 99 + 1 from rfl, haux 99 0]
  rfl

/-- Sanity check accompanying C3: the same state diverges even though a much
larger fuel bound is offered. -/
example : processBatches [[("A", "B"), ("B", "A")]] 5000 = none :=
  propagate_diverges_on_two_cycle 5000

/-! ## Vertex placement (`algorithms/vertex_placement/placement.rs`)

`f32` pixel coordinates are modelled as exact rationals. -/

/-- `VertexPosition` (`placement.rs:10`). -/
structure VertexPosition where
  vertex_id : String
  x : ℚ
  y : ℚ
  layer : Int
  level : Int
deriving DecidableEq

/-- `PlacementConfig` (`placement.rs:20`). -/
structure PlacementConfig where
  block_width : ℚ
  block_height : ℚ
  horizontal_gap : ℚ
  vertical_gap : ℚ
deriving DecidableEq

/-- `PlacementConfig::default` (`placement.rs:34`). -/
def defaultPlacementConfig : PlacementConfig := ⟨160, 80, 80, 50⟩

/-- `place_vertices_in_layer` (`placement.rs:49`): distribute the given
vertex ids vertically, `level` = position in the list. -/
def placeVerticesInLayer (layer : Int) (vertexIds : List String)
    (config : PlacementConfig) : List VertexPosition :=
  vertexIds.enum.map (fun p =>
    { vertex_id := p.2
      x := (layer : ℚ) * (config.block_width + config.horizontal_gap)
      y := (p.1 : ℚ) * (config.block_height + config.vertical_gap)
      layer := layer
      level := (p.1 : Int) })

/-- Insertion step of an ascending insertion sort on `Int`. -/
def insertSorted (x : Int) : List Int → List Int
  | [] => [x]
  | y :: ys => if x ≤ y then x :: y :: ys else y :: insertSorted x ys

/-- Ascending sort, modelling `sorted_layers.sort_by_key(|(layer, _)| *layer)`
on the distinct layer keys (`placement.rs:93-94`). -/
def sortInts (l : List Int) : List Int := l.foldr insertSorted []

/-- `place_all_vertices` (`placement.rs:78`): group the map by layer in
iteration order, sort the distinct layer keys ascending, and place each
layer's vertices in the order in which the map iteration produced them.  The
Rust code performs no sort of the vertex ids inside one layer. -/
def placeAllVertices (layerMap : List (String × Int))
    (config : PlacementConfig) : List VertexPosition :=
  (sortInts ((layerMap.map (·.2)).dedup)).flatMap (fun l =>
    placeVerticesInLayer l
      ((layerMap.filter (fun q => q.2 == l)).map (·.1)) config)

/-! ## Edge routing (`algorithms/vertex_placement/edge_routing.rs`) -/

/-- `EdgeRoutingOptions` (`edge_routing.rs:15`). -/
structure EdgeRoutingOptions where
  use_polylines : Bool
  polyline_threshold : Int
  avoid_vertices : Bool
deriving DecidableEq

/-- `EdgeRoutingOptions::default` (`edge_routing.rs:27`). -/
def defaultEdgeRoutingOptions : EdgeRoutingOptions := ⟨true, 2, false⟩

/-- `compute_polyline` (`edge_routing.rs:119`): start at the right-center of
the source block, `layer_span - 1` evenly interpolated waypoints, end at the
left-center of the target block. -/
def computePolyline (source target : VertexPosition)
    (config : PlacementConfig) : List (ℚ × ℚ) :=
  [(source.x + config.block_width, source.y + config.block_height / 2)] ++
    (if 0 < abs (target.layer - source.layer) - 1 then
      (List.range' 1 (abs (target.layer - source.layer) - 1).toNat).map
        (fun (i : Nat) =>
          (source.x + config.block_width +
            (target.x - (source.x + config.block_width)) /
              (((abs (target.layer - source.layer) - 1 + 1 : Int)) : ℚ) *
              (i : ℚ),
           source.y + config.block_height / 2 +
            (target.y + config.block_height / 2 -
                (source.y + config.block_height / 2)) /
              (((abs (target.layer - source.layer) - 1 + 1 : Int)) : ℚ) *
              (i : ℚ)))
    else []) ++
    [(target.x, target.y + config.block_height / 2)]

/-- `compute_single_edge_path` (`edge_routing.rs:98`): a two-point straight
segment when polylines are disabled or the layer span is below the threshold,
else a polyline. -/
def computeSingleEdgePath (source target : VertexPosition)
    (config : PlacementConfig) (options : EdgeRoutingOptions) :
    List (ℚ × ℚ) :=
  if ¬ options.use_polylines = true ∨
      abs (target.layer - source.layer) < options.polyline_threshold then
    [(source.x + config.block_width, source.y + config.block_height / 2),
     (target.x, target.y + config.block_height / 2)]
  else
    computePolyline source target config

-- Sanity checks mirroring the Rust unit tests `test_straight_line_path` and
-- `test_polyline_path`.
example :
    computeSingleEdgePath ⟨"A", 0, 0, 0, 0⟩ ⟨"B", 240, 0, 1, 0⟩
      defaultPlacementConfig defaultEdgeRoutingOptions =
    [(160, 40), (240, 40)] := by
  norm_num [computeSingleEdgePath, defaultPlacementConfig,
    defaultEdgeRoutingOptions]

example :
    (computeSingleEdgePath ⟨"A", 0, 0, 0, 0⟩ ⟨"B", 720, 0, 3, 0⟩
      defaultPlacementConfig defaultEdgeRoutingOptions).length = 4 := by
  rw [computeSingleEdgePath, if_neg (by decide), computePolyline,
    if_pos (by decide : (0 : Int) <
      |(⟨"B", 720, 0, 3, 0⟩ : VertexPosition).layer -
        (⟨"A", 0, 0, 0, 0⟩ : VertexPosition).layer| - 1),
    show List.range' 1 (Int.toNat
      (|(⟨"B", 720, 0, 3, 0⟩ : VertexPosition).layer -
        (⟨"A", 0, 0, 0, 0⟩ : VertexPosition).layer| - 1)) = [1, 2] from by
      decide]
  simp

/-! ## Claim theorems: placement and routing -/

theorem mem_insertSorted {x a : Int} {l : List Int} :
    a ∈ insertSorted x l ↔ a = x ∨ a ∈ l := by
  induction l with
  | nil => simp [insertSorted]
  | cons y ys ih =>
    rw [insertSorted]
    split
    · simp
    · simp only [List.mem_cons, ih]
      tauto

theorem mem_sortInts {a : Int} {l : List Int} : a ∈ sortInts l ↔ a ∈ l := by
  induction l with
  | nil => simp [sortInts]
  | cons x xs ih =>
    rw [sortInts, List.foldr_cons, mem_insertSorted]
    rw [sortInts] at ih
    rw [ih]
    simp

/-- **C7** — Coordinate formula: every position produced by
`place_all_vertices` satisfies `x = layer * (block_width + horizontal_gap)`
and `y = level * (block_height + vertical_gap)` exactly (coordinates are
modelled as exact rationals; the Rust `f32` computation performs exactly
these operations). -/
theorem placement_coordinate_formula (layerMap : List (String × Int))
    (config : PlacementConfig) :
    ∀ p ∈ placeAllVertices layerMap config,
      p.x = (p.layer : ℚ) * (config.block_width + config.horizontal_gap) ∧
      p.y = (p.level : ℚ) * (config.block_height + config.vertical_gap) := by
  intro p hp
  rw [placeAllVertices] at hp
  obtain ⟨l, _, hp⟩ := List.mem_flatMap.mp hp
  rw [placeVerticesInLayer] at hp
  obtain ⟨⟨i, v⟩, _, rfl⟩ := List.mem_map.mp hp
  refine ⟨rfl, ?_⟩
  push_cast
  ring

/-- Closed witness for `placement_coordinate_formula`. -/
theorem placement_coordinate_formula_witness :
    ∃ p, p ∈ placeAllVertices [("A", 0)] defaultPlacementConfig ∧
      (p.x = (p.layer : ℚ) *
          (defaultPlacementConfig.block_width +
            defaultPlacementConfig.horizontal_gap) ∧
       p.y = (p.level : ℚ) *
          (defaultPlacementConfig.block_height +
            defaultPlacementConfig.vertical_gap)) := by
  have hne : placeAllVertices [("A", 0)] defaultPlacementConfig ≠ [] := by
    decide
  exact ⟨_, List.head_mem hne,
    placement_coordinate_formula _ _ _ (List.head_mem hne)⟩

/-- **C5 counterexample** — `place_all_vertices` does not break ties
lexicographically: for the layer map whose iteration order is
`[("B", 0), ("A", 0)]`, vertex `"B"` receives level 0 and `"A"` level 1 even
though `"A" < "B"` lexicographically. -/
theorem place_level_not_lexicographic :
    ((placeAllVertices [("B", 0), ("A", 0)] defaultPlacementConfig).map
      (fun p => (p.vertex_id, p.level))) = [("B", 0), ("A", 1)] ∧
    "A".data < "B".data := by
  exact ⟨by decide, by decide⟩

/-- **C5 (amended)** — Each vertex of the layer map receives exactly the
position determined by its layer and by its rank *in the map's iteration
order* within that layer (the Rust code performs no lexicographic tie-break);
placement is a pure function of the layer map's iteration sequence, so two
runs over the same map produce identical `(layer, level, x, y)`. -/
theorem place_level_is_iteration_rank (layerMap : List (String × Int))
    (config : PlacementConfig) :
    ∀ v l, (v, l) ∈ layerMap →
      ∃ p ∈ placeAllVertices layerMap config,
        p.vertex_id = v ∧ p.layer = l ∧
        p.level =
          ((((layerMap.filter (fun q => q.2 == l)).map (·.1)).indexOf v : Nat) :
            Int) ∧
        p.x = (l : ℚ) * (config.block_width + config.horizontal_gap) ∧
        p.y = (p.level : ℚ) * (config.block_height + config.vertical_gap) := by
  intro v l hvl
  have hvm : v ∈ (layerMap.filter (fun q => q.2 == l)).map (·.1) :=
    List.mem_map.mpr ⟨(v, l), List.mem_filter.mpr ⟨hvl, by simp⟩, rfl⟩
  set members := (layerMap.filter (fun q => q.2 == l)).map (·.1) with hmembers
  have hidx : members.indexOf v < members.length :=
    List.indexOf_lt_length.mpr hvm
  have hget : members[members.indexOf v] = v := List.getElem_indexOf hidx
  have hl_mem : l ∈ sortInts ((layerMap.map (·.2)).dedup) := by
    rw [mem_sortInts, List.mem_dedup]
    exact List.mem_map.mpr ⟨(v, l), hvl, rfl⟩
  have hlen : members.indexOf v < members.enum.length := by
    rw [List.enum_length]
    exact hidx
  have henum : members.enum[members.indexOf v] = (members.indexOf v, v) := by
    rw [List.getElem_enum, hget]
  have henum_mem : (members.indexOf v, v) ∈ members.enum := by
    rw [← henum]
    exact List.getElem_mem hlen
  refine ⟨_, List.mem_flatMap.mpr ⟨l, hl_mem, List.mem_map.mpr
    ⟨(members.indexOf v, v), henum_mem, rfl⟩⟩, rfl, rfl, rfl, rfl, ?_⟩
  push_cast
  ring

/-- Closed witness for `place_level_is_iteration_rank`: vertex `"A"` of the
map `[("B", 0), ("A", 0)]` gets level `1`, its iteration rank. -/
theorem place_level_is_iteration_rank_witness :
    ("A", (0 : Int)) ∈ [("B", (0 : Int)), ("A", (0 : Int))] ∧
    ∃ p ∈ placeAllVertices [("B", 0), ("A", 0)] defaultPlacementConfig,
      p.vertex_id = "A" ∧ p.layer = 0 ∧
      p.level =
        (((([(("B" : String), (0 : Int)), ("A", 0)].filter
          (fun q => q.2 == (0 : Int))).map (·.1)).indexOf "A" : Nat) : Int) ∧
      p.x = ((0 : Int) : ℚ) *
        (defaultPlacementConfig.block_width +
          defaultPlacementConfig.horizontal_gap) ∧
      p.y = (p.level : ℚ) *
        (defaultPlacementConfig.block_height +
          defaultPlacementConfig.vertical_gap) :=
  ⟨by decide,
    place_level_is_iteration_rank [("B", 0), ("A", 0)] defaultPlacementConfig
      "A" 0 (by decide)⟩

/-- **C6** — Edge routing: with polylines enabled, a positive threshold, and
the source not after the target, the routed path starts at
`(x(s) + block_width, y(s) + block_height/2)` and ends at
`(x(t), y(t) + block_height/2)`; a span below the threshold yields exactly
the two-point straight segment, and a span at or above the threshold yields
the polyline with `span - 1` evenly interpolated intermediate waypoints, for
`layer(t) - layer(s) + 1` points in total. -/
theorem edge_path_endpoints_and_polyline
    (source target : VertexPosition) (config : PlacementConfig)
    (options : EdgeRoutingOptions)
    (hpoly : options.use_polylines = true)
    (hthr : 0 < options.polyline_threshold)
    (hle : source.layer ≤ target.layer) :
    (computeSingleEdgePath source target config options).head? =
      some (source.x + config.block_width,
        source.y + config.block_height / 2) ∧
    (computeSingleEdgePath source target config options).getLast? =
      some (target.x, target.y + config.block_height / 2) ∧
    (target.layer - source.layer < options.polyline_threshold →
      computeSingleEdgePath source target config options =
        [(source.x + config.block_width, source.y + config.block_height / 2),
         (target.x, target.y + config.block_height / 2)]) ∧
    (options.polyline_threshold ≤ target.layer - source.layer →
      computeSingleEdgePath source target config options =
        [(source.x + config.block_width,
          source.y + config.block_height / 2)] ++
        (List.range' 1 (target.layer - source.layer - 1).toNat).map
          (fun (i : Nat) =>
          (source.x + config.block_width +
            (target.x - (source.x + config.block_width)) /
              ((target.layer - source.layer : Int) : ℚ) * (i : ℚ),
           source.y + config.block_height / 2 +
            (target.y + config.block_height / 2 -
              (source.y + config.block_height / 2)) /
              ((target.layer - source.layer : Int) : ℚ) * (i : ℚ))) ++
        [(target.x, target.y + config.block_height / 2)] ∧
      ((computeSingleEdgePath source target config options).length : Int) =
        target.layer - source.layer + 1) := by
  have habs : |target.layer - source.layer| = target.layer - source.layer :=
    abs_of_nonneg (by omega)
  by_cases hlt : target.layer - source.layer < options.polyline_threshold
  · have hstraight : computeSingleEdgePath source target config options =
        [(source.x + config.block_width, source.y + config.block_height / 2),
         (target.x, target.y + config.block_height / 2)] := by
      rw [computeSingleEdgePath, if_pos]
      right
      rw [habs]
      exact hlt
    refine ⟨by rw [hstraight]; rfl, by rw [hstraight]; rfl,
      fun _ => hstraight, fun hge => absurd hlt (by omega)⟩
  · have hge : options.polyline_threshold ≤ target.layer - source.layer := by
      omega
    have hpos : (1 : Int) ≤ target.layer - source.layer := by omega
    have hcond : ¬ (¬ options.use_polylines = true ∨
        |target.layer - source.layer| < options.polyline_threshold) := by
      rw [habs]
      push_neg
      exact ⟨hpoly, by omega⟩
    have hdiv : ((|target.layer - source.layer| - 1 + 1 : Int)) =
        (target.layer - source.layer : Int) := by
      rw [habs]
      omega
    have hpolyline : computeSingleEdgePath source target config options =
        [(source.x + config.block_width,
          source.y + config.block_height / 2)] ++
        (List.range' 1 (target.layer - source.layer - 1).toNat).map
          (fun (i : Nat) =>
          (source.x + config.block_width +
            (target.x - (source.x + config.block_width)) /
              ((target.layer - source.layer : Int) : ℚ) * (i : ℚ),
           source.y + config.block_height / 2 +
            (target.y + config.block_height / 2 -
              (source.y + config.block_height / 2)) /
              ((target.layer - source.layer : Int) : ℚ) * (i : ℚ))) ++
        [(target.x, target.y + config.block_height / 2)] := by
      rw [computeSingleEdgePath, if_neg hcond, computePolyline]
      congr 1
      congr 1
      by_cases hmid : (0 : Int) < |target.layer - source.layer| - 1
      · rw [if_pos hmid, habs,
          show (target.layer - source.layer - 1 + 1 : Int) =
            target.layer - source.layer from by omega]
      · rw [if_neg hmid]
        have : (target.layer - source.layer - 1).toNat = 0 := by
          rw [habs] at hmid
          omega
        rw [this]
        rfl
    refine ⟨?_, ?_, fun h => absurd h (by omega), fun _ => ⟨hpolyline, ?_⟩⟩
    · rw [hpolyline]
      rfl
    · rw [hpolyline]
      exact List.getLast?_concat _
    · rw [hpolyline]
      simp only [List.length_append, List.length_map, List.length_range',
        List.length_cons, List.length_nil]
      have : ((target.layer - source.layer - 1).toNat : Int) =
          target.layer - source.layer - 1 :=
        Int.toNat_of_nonneg (by omega)
      push_cast
      omega

/-- Closed witness for `edge_path_endpoints_and_polyline`, on the edge of the
Rust unit test `test_polyline_path` (span 3, threshold 2). -/
theorem edge_path_endpoints_and_polyline_witness :
    (computeSingleEdgePath ⟨"A", 0, 0, 0, 0⟩ ⟨"B", 720, 0, 3, 0⟩
        defaultPlacementConfig defaultEdgeRoutingOptions).head? =
      some (160, 40) ∧
    (computeSingleEdgePath ⟨"A", 0, 0, 0, 0⟩ ⟨"B", 720, 0, 3, 0⟩
        defaultPlacementConfig defaultEdgeRoutingOptions).getLast? =
      some (720, 40) ∧
    ((computeSingleEdgePath ⟨"A", 0, 0, 0, 0⟩ ⟨"B", 720, 0, 3, 0⟩
        defaultPlacementConfig defaultEdgeRoutingOptions).length : Int) =
      3 - 0 + 1 := by
  obtain ⟨h1, h2, _, h4⟩ := edge_path_endpoints_and_polyline
    ⟨"A", 0, 0, 0, 0⟩ ⟨"B", 720, 0, 3, 0⟩ defaultPlacementConfig
    defaultEdgeRoutingOptions (by decide) (by decide) (by decide)
  obtain ⟨_, hlen⟩ := h4 (by decide)
  refine ⟨?_, ?_, ?_⟩
  · rw [h1]
    norm_num [defaultPlacementConfig]
  · rw [h2]
    norm_num [defaultPlacementConfig]
  · simpa using hlen

/-! ## The adjacency-indexed graph store (`data_structures.rs`)

Vertices are kept in a list (`vertex_ids`); `vertex_map` is modelled by index
lookup.  Adjacency lists are indexed by vertex index.  The edge-weight map is
omitted (only `get_edge_weight` reads it; no claim touches weights). -/

/-- Error taxonomy of the engine (the Rust code reports these through
`anyhow` message strings). -/
inductive LayoutError
  | emptyGraph
  | noValidEdges
  | selfLoop
  | cyclicGraph
deriving DecidableEq

/-- DFS colors (`data_structures.rs:277`). -/
inductive DfsColor
  | white
  | gray
  | black
deriving DecidableEq

/-- `Graph` (`data_structures.rs:19`). -/
structure Graph where
  vertexIds : List String
  adjacencyOut : List (List Nat)
  adjacencyIn : List (List Nat)
  edgeCount : Nat
deriving DecidableEq

def Graph.vertexCount (g : Graph) : Nat := g.vertexIds.length

/-- `vertex_map` lookup. -/
def Graph.indexOfVertex (g : Graph) (v : String) : Option Nat :=
  g.vertexIds.findIdx? (fun x => x == v)

/-- `Graph::get_outgoing_edges`: `None` for an absent vertex, else the
neighbor ids in insertion order. -/
def Graph.getOutgoingEdges (g : Graph) (v : String) : Option (List String) :=
  (g.indexOfVertex v).map (fun i =>
    (g.adjacencyOut.getD i []).map (fun j => g.vertexIds.getD j ""))

/-- `Graph::get_incoming_edges`. -/
def Graph.getIncomingEdges (g : Graph) (v : String) : Option (List String) :=
  (g.indexOfVertex v).map (fun i =>
    (g.adjacencyIn.getD i []).map (fun j => g.vertexIds.getD j ""))

/-- `dfs_cycle_check` (`data_structures.rs:209`) with an explicit recursion
bound (the Rust recursion depth is bounded by the number of white vertices;
callers pass `vertexCount + 1`, which is always sufficient). -/
def dfsCycleCheck (g : Graph) : Nat → Nat → List DfsColor → Bool × List DfsColor
  | 0, _, colors => (false, colors)
  | fuel + 1, i, colors =>
    let r := (g.adjacencyOut.getD i []).foldl
      (fun (acc : Bool × List DfsColor) j =>
        if acc.1 then acc
        else
          match acc.2.getD j DfsColor.white with
          | DfsColor.gray => (true, acc.2)
          | DfsColor.black => acc
          | DfsColor.white => dfsCycleCheck g fuel j acc.2)
      (false, colors.set i DfsColor.gray)
    if r.1 then (true, r.2) else (false, r.2.set i DfsColor.black)

/-- `Graph::has_cycle` (`data_structures.rs:194`): 3-color DFS from every
still-white vertex. -/
def Graph.hasCycle (g : Graph) : Bool :=
  ((List.range g.vertexCount).foldl
    (fun (acc : Bool × List DfsColor) i =>
      if acc.1 then acc
      else if acc.2.getD i DfsColor.white = DfsColor.white then
        dfsCycleCheck g (g.vertexCount + 1) i acc.2
      else acc)
    (false, List.replicate g.vertexCount DfsColor.white)).1

/-- `Graph::is_dag` (`data_structures.rs:189`). -/
def Graph.isDag (g : Graph) : Bool := g.hasCycle == false

/-- `GraphBuilder` (`data_structures.rs:296`): deduplicated vertex set in
insertion order plus the raw edge list. -/
structure GraphBuilder where
  vertices : List String
  edges : List (String × String × ℚ)

def GraphBuilder.new : GraphBuilder := ⟨[], []⟩

/-- `GraphBuilder::add_edge` (`data_structures.rs:311`): rejects self-loops,
otherwise records both endpoints and the edge. -/
def GraphBuilder.addEdge (b : GraphBuilder) (source target : String)
    (weight : ℚ) : Except LayoutError GraphBuilder :=
  if source = target then .error .selfLoop
  else .ok ⟨insertUnique (insertUnique b.vertices source) target,
    b.edges ++ [(source, target, weight)]⟩

/-- `GraphBuilder::build` (`data_structures.rs:329`): index the vertices and
fill both adjacency projections.  (The index lookups cannot fail for
builder-recorded edges; the fallthrough keeps the function total.) -/
def GraphBuilder.build (b : GraphBuilder) : Graph :=
  let n := b.vertices.length
  b.edges.foldl
    (fun g e =>
      match g.vertexIds.findIdx? (fun x => x == e.1),
          g.vertexIds.findIdx? (fun x => x == e.2.1) with
      | some si, some ti =>
        { g with
          adjacencyOut := g.adjacencyOut.set si
            ((g.adjacencyOut.getD si []) ++ [ti])
          adjacencyIn := g.adjacencyIn.set ti
            ((g.adjacencyIn.getD ti []) ++ [si])
          edgeCount := g.edgeCount + 1 }
      | _, _ => g)
    ⟨b.vertices, List.replicate n [], List.replicate n [], 0⟩

/-- Building a graph from a `(source, target, weight)` list through the
builder. -/
def buildFromEdges (es : List (String × String × ℚ)) :
    Except LayoutError Graph :=
  (es.foldlM (fun b (e : String × String × ℚ) =>
    GraphBuilder.addEdge b e.1 e.2.1 e.2.2) GraphBuilder.new).map
    GraphBuilder.build

/-! ## Parallel Kahn topological sort (`algorithms/topological_sort.rs`)

The per-level parallel processing only affects intra-level order; the model
processes each level sequentially in queue order. -/

/-- `compute_in_degrees_simd` (`topological_sort.rs:140`). -/
def computeInDegrees (g : Graph) : List Nat :=
  (List.range g.vertexCount).foldl
    (fun degs i =>
      (g.adjacencyOut.getD i []).foldl (fun d j => d.set j (d.getD j 0 + 1))
        degs)
    (List.replicate g.vertexCount 0)

/-- `process_level_parallel` (`topological_sort.rs:225`): decrement the
in-degree of every successor of the level's vertices and collect the
newly-zeroed vertices. -/
def processLevel (g : Graph) (level : List Nat) (degs : List Nat) :
    List Nat × List Nat :=
  level.foldl
    (fun (acc : List Nat × List Nat) i =>
      (g.adjacencyOut.getD i []).foldl
        (fun (acc2 : List Nat × List Nat) j =>
          ((if acc2.2.getD j 0 - 1 = 0 then acc2.1 ++ [j] else acc2.1),
            acc2.2.set j (acc2.2.getD j 0 - 1)))
        acc)
    ([], degs)

/-- The level loop of `kahn_parallel` (`topological_sort.rs:188-210`),
appending each drained level to the output order. -/
def kahnLoop (g : Graph) : Nat → List Nat → List Nat → List Nat
  | 0, _, _ => []
  | fuel + 1, queue, degs =>
    if queue.isEmpty then []
    else
      let next := processLevel g queue degs
      queue ++ kahnLoop g fuel next.1 next.2

/-- The vertex order produced by `kahn_parallel` before its cycle check. -/
def kahnOrder (g : Graph) (fuel : Nat) : List String :=
  let degs := computeInDegrees g
  (kahnLoop g fuel
      ((List.range g.vertexCount).filter (fun i => degs.getD i 0 == 0))
      degs).map
    (fun i => g.vertexIds.getD i "")

/-- `kahn_parallel` (`topological_sort.rs:170-221`): a cycle is reported when
the produced order does not cover every vertex. -/
def kahnParallel (g : Graph) (fuel : Nat) :
    Except LayoutError (List String) :=
  if (kahnOrder g fuel).length ≠ g.vertexCount then .error .cyclicGraph
  else .ok (kahnOrder g fuel)

-- Sanity check: the chain of `test_simple_topo_sort` is fully ordered.
example :
    (buildFromEdges [("A", "B", 1), ("B", "C", 1)]).map
      (fun g => kahnParallel g 8) =
    .ok (.ok ["A", "B", "C"]) := by rfl

/-! ## BFS layer assignment (`algorithms/vertex_placement/layer_assignment.rs`) -/

/-- The `has_incoming` test of `assign_layers_bfs`
(`layer_assignment.rs:41-43`). -/
def hasIncomingEdges (g : Graph) (v : String) : Bool :=
  match g.getIncomingEdges v with
  | none => false
  | some l => !l.isEmpty

/-- The BFS queue loop of `assign_layers_bfs` (`layer_assignment.rs:72-101`):
pop `(vertex, layer)`, and for each outgoing target update its layer if the
new path is longer, re-enqueueing it. -/
def bfsLoop (g : Graph) : Nat → List (String × Int) → List (String × Int) →
    List (String × Int)
  | 0, _, layerMap => layerMap
  | _ + 1, [], layerMap => layerMap
  | fuel + 1, (v, currentLayer) :: queue, layerMap =>
    match g.getOutgoingEdges v with
    | none => bfsLoop g fuel queue layerMap
    | some targets =>
      let acc := targets.foldl
        (fun (acc : List (String × Int) × List (String × Int)) t =>
          let shouldUpdate :=
            match VMap.find acc.1 t with
            | none => true
            | some existing => existing < currentLayer + 1
          if shouldUpdate then
            (VMap.insert acc.1 t (currentLayer + 1),
              acc.2 ++ [(t, currentLayer + 1)])
          else acc)
        (layerMap, queue)
      bfsLoop g fuel acc.2 acc.1

/-- `assign_layers_bfs` (`layer_assignment.rs:30`): seed all zero-in-degree
vertices with layer 0; with no source vertex the (empty) layer map is
returned immediately and without error.  The trailing validation pass only
logs and never changes the result, so it is omitted. -/
def assignLayersBFS (g : Graph) (fuel : Nat) : List (String × Int) :=
  let sources := g.vertexIds.filter (fun v => !(hasIncomingEdges g v))
  if sources.isEmpty then []
  else
    bfsLoop g fuel (sources.map (fun v => (v, 0)))
      (sources.map (fun v => (v, (0 : Int))))

/-! ## Layout optimization (`algorithms/vertex_placement/optimization.rs`) -/

/-- `OptimizationOptions` (`optimization.rs:14`). -/
structure OptimizationOptions where
  compact_layout : Bool
  max_iterations : Nat
deriving DecidableEq

/-- `OptimizationOptions::default` (`optimization.rs:22`). -/
def defaultOptimizationOptions : OptimizationOptions := ⟨true, 10⟩

/-- Stable insertion (by current `y`) used to model
`indices.sort_by(... y.partial_cmp ...)` (`optimization.rs:71-76`). -/
def insertIdxByY (positions : List VertexPosition) (i : Nat) :
    List Nat → List Nat
  | [] => [i]
  | j :: js =>
    if (positions.getD j ⟨"", 0, 0, 0, 0⟩).y ≤
        (positions.getD i ⟨"", 0, 0, 0, 0⟩).y then
      j :: insertIdxByY positions i js
    else i :: j :: js

/-- One layer of `compact_layout` (`optimization.rs:69-99`): sort the layer's
position indices by `y`, and when some consecutive gap exceeds 130 px,
renumber the `y`s contiguously in steps of 130 (the constants are hard-coded
in the source). -/
def compactOneLayer (positions : List VertexPosition) (l : Int) :
    List VertexPosition × Bool :=
  let sorted := ((positions.enum.filter (fun p => p.2.layer == l)).map
    (·.1)).foldl (fun acc i => insertIdxByY positions i acc) []
  let hasGaps := (sorted.zip sorted.tail).any (fun q =>
    (130 : ℚ) < (positions.getD q.2 ⟨"", 0, 0, 0, 0⟩).y -
      (positions.getD q.1 ⟨"", 0, 0, 0, 0⟩).y)
  if hasGaps then
    (sorted.enum.foldl
      (fun ps q =>
        ps.set q.2
          { ps.getD q.2 ⟨"", 0, 0, 0, 0⟩ with y := (130 : ℚ) * (q.1 : ℚ) })
      positions, true)
  else (positions, false)

/-- `compact_layout` (`optimization.rs:57`): compact every layer; layers are
disjoint index sets, so the iteration order over layers is immaterial. -/
def compactLayout (positions : List VertexPosition) :
    List VertexPosition × Bool :=
  ((positions.map (·.layer)).dedup).foldl
    (fun acc l =>
      let r := compactOneLayer acc.1 l
      (r.1, acc.2 || r.2))
    (positions, false)

/-- The iteration loop of `optimize_placement` (`optimization.rs:39-50`):
up to `max_iterations` compaction passes, stopping at the first pass without
improvement. -/
def optimizeLoop (compact : Bool) : Nat → List VertexPosition →
    List VertexPosition
  | 0, ps => ps
  | n + 1, ps =>
    let r := if compact then compactLayout ps else (ps, false)
    if r.2 then optimizeLoop compact n r.1 else r.1

/-- `optimize_placement` (`optimization.rs:32`). -/
def optimizePlacement (positions : List VertexPosition)
    (opts : OptimizationOptions) : List VertexPosition :=
  optimizeLoop opts.compact_layout opts.max_iterations positions

/-! ## Edge-path wrapper and the placer facade
(`algorithms/vertex_placement/edge_routing.rs`, `mod.rs`) -/

/-- `compute_edge_paths` (`edge_routing.rs:39`): for every placed vertex and
each of its outgoing targets that also has a position, record the routed
path; edges with unplaced endpoints are skipped. -/
def computeEdgePaths (positions : List VertexPosition) (g : Graph)
    (config : PlacementConfig) (options : EdgeRoutingOptions) :
    List ((String × String) × List (ℚ × ℚ)) :=
  positions.flatMap (fun pos =>
    match g.getOutgoingEdges pos.vertex_id with
    | none => []
    | some targets =>
      targets.filterMap (fun t =>
        (positions.find? (fun p => p.vertex_id == t)).map (fun tp =>
          ((pos.vertex_id, t), computeSingleEdgePath pos tp config options))))

/-- `neo4j::VertexPosition` (`neo4j.rs:581`). -/
structure Neo4jVertexPosition where
  article_id : String
  layer : Int
  level : Int
  x : ℚ
  y : ℚ
deriving DecidableEq

/-- `OptimalVertexPlacer::place_vertices` (`vertex_placement/mod.rs:84`):
BFS layer assignment, then placement, optional optimization, and edge
routing; an empty layer map short-circuits to a successful empty result. -/
def placeVertices (g : Graph) (config : PlacementConfig)
    (optOptions : OptimizationOptions) (edgeOptions : EdgeRoutingOptions)
    (fuel : Nat) :
    Except LayoutError
      (List Neo4jVertexPosition × List ((String × String) × List (ℚ × ℚ))) :=
  let layerMap := assignLayersBFS g fuel
  if layerMap.isEmpty then .ok ([], [])
  else
    let positions := placeAllVertices layerMap config
    let positions :=
      if optOptions.compact_layout then optimizePlacement positions optOptions
      else positions
    let edgePaths := computeEdgePaths positions g config edgeOptions
    .ok (positions.map (fun p => ⟨p.vertex_id, p.layer, p.level, p.x, p.y⟩),
      edgePaths)

/-! ## The layout engine entry points (`algorithms/mod.rs`,
`algorithms/longest_path.rs`) -/

/-- `neo4j::GraphEdge` (`neo4j.rs:572`). -/
structure GraphEdge where
  source_id : String
  target_id : String
  weight : ℚ
  edge_type : String
deriving DecidableEq

/-- `HighPerformanceLayoutEngine::validate_edges` (`algorithms/mod.rs:170`):
an empty edge list is an error; so is a list with no valid (non-blank,
non-self-loop) edge.  The diagnostic counting only logs. -/
def validateEdges (edges : List GraphEdge) : Except LayoutError Unit :=
  if edges.isEmpty then .error .emptyGraph
  else
    if (edges.filter (fun e =>
        !(trimEmpty e.source_id) && !(trimEmpty e.target_id) &&
          !(e.source_id == e.target_id))).isEmpty then
      .error .noValidEdges
    else .ok ()

/-- `HighPerformanceLayoutEngine::build_graph` (`algorithms/mod.rs:229`):
filter blank endpoints and self-loops, deduplicate ordered pairs, and feed
the rest to the builder. -/
def buildGraph (edges : List GraphEdge) : Except LayoutError Graph :=
  (edges.foldlM
    (fun (acc : GraphBuilder × List (String × String)) e =>
      if trimEmpty e.source_id || trimEmpty e.target_id then .ok acc
      else if e.source_id == e.target_id then .ok acc
      else if (e.source_id, e.target_id) ∈ acc.2 then .ok acc
      else
        (GraphBuilder.addEdge acc.1 e.source_id e.target_id e.weight).map
          (fun b => (b, acc.2 ++ [(e.source_id, e.target_id)])))
    (GraphBuilder.new, [])).map (fun acc => acc.1.build)

/-- Path reconstruction of the longest-path finder
(`longest_path.rs:152-165`), fueled by the vertex count. -/
def reconstructPath (topoOrder : List String) (preds : List (Option Nat)) :
    Nat → Option Nat → List String → List String
  | 0, _, path => path
  | _ + 1, none, path => path
  | fuel + 1, some idx, path =>
    reconstructPath topoOrder preds fuel (preds.getD idx none)
      (path ++ [topoOrder.getD idx ""])

/-- `SIMDLongestPath::find_longest_path_standard` (`longest_path.rs:104`):
forward relaxation over the topological order; `max_by` keeps the last
maximal distance.  (The SIMD variant computes the same distances in `f32`.) -/
def findLongestPath (g : Graph) (topoOrder : List String) : List String :=
  let n := topoOrder.length
  let acc := topoOrder.enum.foldl
    (fun (acc : List Int × List (Option Nat)) ci =>
      match g.getOutgoingEdges ci.2 with
      | none => acc
      | some ts =>
        ts.foldl
          (fun (acc2 : List Int × List (Option Nat)) t =>
            match topoOrder.findIdx? (fun x => x == t) with
            | none => acc2
            | some ti =>
              if acc2.1.getD ti 0 < acc2.1.getD ci.1 0 + 1 then
                (acc2.1.set ti (acc2.1.getD ci.1 0 + 1),
                  acc2.2.set ti (some ci.1))
              else acc2)
          acc)
    (List.replicate n 0, List.replicate n none)
  let maxIdx := (acc.1.enum.foldl
    (fun (best : Nat × Int) p => if best.2 ≤ p.2 then p else best)
    (0, acc.1.getD 0 0)).1
  (reconstructPath topoOrder acc.2 (n + 1) (some maxIdx) []).reverse

/-- `HighPerformanceLayoutEngine::compute_layout` (`algorithms/mod.rs:290`):
validate, build the graph, topological sort, longest path (legacy input,
unused by the placer), then vertex placement.  Wall-clock statistics and
metadata are omitted; the result keeps the positions and edge paths. -/
def computeLayout (edges : List GraphEdge) (config : PlacementConfig)
    (optimize : Bool) (fuel : Nat) :
    Except LayoutError
      (List Neo4jVertexPosition × List ((String × String) × List (ℚ × ℚ))) :=
  match validateEdges edges with
  | .error e => .error e
  | .ok _ =>
    match buildGraph edges with
    | .error e => .error e
    | .ok g =>
      match kahnParallel g fuel with
      | .error e => .error e
      | .ok topoOrder =>
        let _longestPath := findLongestPath g topoOrder
        placeVertices g config ⟨optimize, 10⟩ defaultEdgeRoutingOptions fuel

/-! ## Claim theorems: cycle handling and input validation -/

/-- **C8** — Cycle detection and the Kahn error path: the 3-cycle `A→B→C→A`
built through `GraphBuilder` reports `has_cycle() = true` and
`is_dag() = false`; and whenever the Kahn order covers fewer vertices than
`vertex_count()`, `kahn_parallel` returns the `CyclicGraph` error instead of
a partial order. -/
theorem cycle_detection_and_kahn_error :
    ((buildFromEdges [("A", "B", 1), ("B", "C", 1), ("C", "A", 1)]).map
        Graph.hasCycle = .ok true ∧
      (buildFromEdges [("A", "B", 1), ("B", "C", 1), ("C", "A", 1)]).map
        Graph.isDag = .ok false) ∧
    ∀ (g : Graph) (fuel : Nat),
      (kahnOrder g fuel).length < g.vertexCount →
      kahnParallel g fuel = .error .cyclicGraph := by
  refine ⟨⟨by rfl, by rfl⟩, ?_⟩
  intro g fuel h
  rw [kahnParallel, if_pos (Nat.ne_of_lt h)]

/-- The 3-cycle graph, for the C8 witness. -/
def cyc3Graph : Graph :=
  ((buildFromEdges [("A", "B", 1), ("B", "C", 1), ("C", "A", 1)]).toOption).getD
    ⟨[], [], [], 0⟩

/-- Closed witness for `cycle_detection_and_kahn_error`: on the 3-cycle the
Kahn order is empty, shorter than the vertex count, and the sort errors. -/
theorem cycle_detection_and_kahn_error_witness :
    (kahnOrder cyc3Graph 8).length < cyc3Graph.vertexCount ∧
    kahnParallel cyc3Graph 8 = .error .cyclicGraph :=
  ⟨by decide, cycle_detection_and_kahn_error.2 cyc3Graph 8 (by decide)⟩

/-- **C9** — Empty input rejection: for the empty edge list the engine's
input validation fails with the empty-graph error, and `compute_layout`
(which validates first) returns that error rather than a successful empty
layout, for every configuration. -/
theorem empty_edge_list_rejected :
    ∀ (config : PlacementConfig) (optimize : Bool) (fuel : Nat),
      validateEdges [] = .error .emptyGraph ∧
      computeLayout [] config optimize fuel = .error .emptyGraph := by
  intro config optimize fuel
  exact ⟨rfl, rfl⟩

/-- **C10** — A non-empty graph in which every vertex has an incoming edge
(e.g. every vertex on a cycle) makes `assign_layers_bfs` return an empty
layer map without error, and the vertex placer then succeeds with zero
positions and zero edge paths instead of reporting a failure. -/
theorem all_cyclic_graph_empty_layout_success
    (g : Graph) (config : PlacementConfig)
    (optOptions : OptimizationOptions) (edgeOptions : EdgeRoutingOptions)
    (fuel : Nat)
    (hne : g.vertexIds ≠ [])
    (hinc : ∀ v ∈ g.vertexIds, hasIncomingEdges g v = true) :
    assignLayersBFS g fuel = [] ∧
    placeVertices g config optOptions edgeOptions fuel = .ok ([], []) := by
  have hsrc : g.vertexIds.filter (fun v => !(hasIncomingEdges g v)) = [] := by
    rw [List.filter_eq_nil_iff]
    intro v hv
    simp [hinc v hv]
  have h1 : assignLayersBFS g fuel = [] := by
    rw [assignLayersBFS, hsrc]
    rfl
  refine ⟨h1, ?_⟩
  rw [placeVertices, h1]
  rfl

/-- The 2-cycle graph, for the C10 witness. -/
def cyc2Graph : Graph :=
  ((buildFromEdges [("A", "B", 1), ("B", "A", 1)]).toOption).getD
    ⟨[], [], [], 0⟩

/-- Closed witness for `all_cyclic_graph_empty_layout_success` on the
2-cycle, where both vertices have incoming edges. -/
theorem all_cyclic_graph_empty_layout_success_witness :
    cyc2Graph.vertexIds ≠ [] ∧
    assignLayersBFS cyc2Graph 8 = [] ∧
    placeVertices cyc2Graph defaultPlacementConfig
      defaultOptimizationOptions defaultEdgeRoutingOptions 8 = .ok ([], []) :=
  ⟨by decide,
    all_cyclic_graph_empty_layout_success cyc2Graph defaultPlacementConfig
      defaultOptimizationOptions defaultEdgeRoutingOptions 8 (by decide)
      (by decide)⟩

end KnowledgeMap
